import Mathlib

/-!
# qmegle-websocket: session, matchmaking and relay core of `server.js`

A shallow embedding of `src/server.js`.

Modelling conventions.

* Every `UserSession` object lives in `Server.heap`; a reference to a session is its
  index in the heap.  The source gives each object `id = uuid.v4()`, never reassigns
  it and uses it as the only key, so object identity and `id` coincide: the id of a
  session *is* its heap index, and `uuid.v4()` is allocation of the next index.
* `activeConnections` (a `Map` keyed by id) is the list of its keys, in insertion
  order; the values are the heap objects.
* `waitingRoom` is the array of session references.
* Every call of `ws.send` and `ws.close` is appended to `Server.log`, tagged with the
  session that owns the socket.  `ws.readyState` is a field of the session.
* Inbound messages are well typed as in the interface table (`interests` a list of
  strings, `strictMatch` a boolean, `text` a string); `JSON.parse` failures are not
  modelled.  `Date.now()` is an input of the event.
* `process.nextTick(() => matchUsers(user))` runs right after the handler that
  scheduled it, before any other event.
* An uncaught `TypeError` (reading `.ws` of `undefined`) is the result `none`.
* `messageCount` and the clock are natural numbers (the source's doubles are exact
  far beyond any reachable count); `now - lastMessageTime` is an integer
  subtraction.  A `ws.send` on a socket that is no longer open is recorded like any
  other call; what the socket does with it is outside the model.
-/

namespace Qmegle

/-- The `readyState` of a server-side `ws` socket (never `CONNECTING`). -/
inductive ReadyState where
  | OPEN
  | CLOSING
  | CLOSED
  deriving DecidableEq, Repr

/-- The `UserSession` class (lines 15-25); `id` is the heap index, `ws` is
represented by its `readyState`. -/
structure UserSession where
  interests : List String
  strictMatch : Bool
  partner : Option Nat
  lastMessageTime : Nat
  messageCount : Nat
  readyState : ReadyState
  deriving DecidableEq, Repr

/-- Events the server sends to a client (the argument of `ws.send`). -/
inductive ServerEvent where
  | init (userId : Nat) (onlineUsers : Int)
  | matched (partnerId : Nat)
  | typing (isTyping : Bool)
  | message (text : List Char) (sender : Nat)
  | disconnect
  deriving DecidableEq, Repr

/-- One call on a socket: `ws.send(event)` or `ws.close()`, with the owning session. -/
inductive Effect where
  | send (dest : Nat) (ev : ServerEvent)
  | close (ws : Nat)
  deriving DecidableEq, Repr

/-- The module-level state: `onlineUsers`, `waitingRoom`, `activeConnections`, the
session objects, and the calls made on sockets so far. -/
structure Server where
  onlineUsers : Int
  waitingRoom : List Nat
  activeConnections : List Nat
  heap : List UserSession
  log : List Effect
  deriving DecidableEq, Repr

/-- The state at module load (lines 10-12). -/
def Server.empty : Server :=
  { onlineUsers := 0, waitingRoom := [], activeConnections := [], heap := [], log := [] }

/-- `new UserSession(ws)` with the constructor defaults (lines 16-24). -/
def UserSession.fresh : UserSession :=
  { interests := [], strictMatch := false, partner := none,
    lastMessageTime := 0, messageCount := 0, readyState := ReadyState.OPEN }

/-- The `partner` field of the session referenced by `u` (`none` is `null`). -/
def Server.partnerOf (s : Server) (u : Nat) : Option Nat :=
  (s.heap[u]?).bind UserSession.partner

/-- `ws.close()`: an open socket starts closing, otherwise nothing changes. -/
def wsClose (r : ReadyState) : ReadyState :=
  match r with
  | ReadyState.OPEN => ReadyState.CLOSING
  | r => r

/-- `String.prototype.length`: the number of UTF-16 code units. -/
def jsLength (text : List Char) : Nat :=
  (text.map (fun c => if c.toNat < 65536 then 1 else 2)).sum

/-- `String.prototype.toLowerCase` on the letters that matter here: `A`-`Z` go to
`a`-`z`.  Other characters are left alone; no non-ASCII character lowercases to a
string in which a letter of a banned word is followed by the next one. -/
def toLowerCase (text : List Char) : List Char :=
  text.map Char.toLower

/-- `String.prototype.includes`: `word` occurs in `text` as a contiguous substring. -/
def includes (text word : List Char) : Bool :=
  text.tails.any (fun t => word.isPrefixOf t)

/-- The constant `bannedWords` (line 152). -/
def bannedWords : List (List Char) :=
  ["badword".toList, "inappropriate".toList, "spam".toList]

/-- `containsBannedWords` (lines 151-154). -/
def containsBannedWords (text : List Char) : Bool :=
  bannedWords.any (fun word => includes (toLowerCase text) word)

/-- `newUser.interests.filter(interest => user.interests.includes(interest))`. -/
def commonInterests (newUser user : UserSession) : List String :=
  newUser.interests.filter (fun interest => user.interests.contains interest)

/-- The body of the `for` loop of `findMatch` (lines 29-40) over the remaining
entries of the waiting room; `newUser` is the reference, `n` the object. -/
def findMatchFrom (heap : List UserSession) (newUser : Nat) (n : UserSession) :
    List Nat → Option Nat
  | [] => none
  | user :: rest =>
    match heap[user]? with
    | none => findMatchFrom heap newUser n rest
    | some u =>
      if user = newUser then findMatchFrom heap newUser n rest
      else if (n.strictMatch || u.strictMatch) && (commonInterests n u).length == 0 then
        findMatchFrom heap newUser n rest
      else some user

/-- `findMatch(newUser)` (lines 28-42). -/
def findMatch (s : Server) (newUser : Nat) : Option Nat :=
  match s.heap[newUser]? with
  | none => none
  | some n => findMatchFrom s.heap newUser n s.waitingRoom

/-- `array.indexOf(x)`: the first index of `x`, or `-1`. -/
def jsIndexOf (l : List Nat) (x : Nat) : Int :=
  if x ∈ l then (l.indexOf x : Int) else -1

/-- `array.splice(start, 1)`: a negative `start` counts from the end (clamped at 0);
one element is removed at that position when there is one. -/
def splice1 (l : List Nat) (start : Int) : List Nat :=
  let i : Int := if start < 0 then max ((l.length : Int) + start) 0 else min start l.length
  l.eraseIdx i.toNat

/-- `matchUsers(user)` (lines 93-115). -/
def matchUsers (s : Server) (user : Nat) : Server :=
  match findMatch s user with
  | none => s
  | some partner =>
    let w1 := splice1 s.waitingRoom (jsIndexOf s.waitingRoom user)
    let w2 := splice1 w1 (jsIndexOf w1 partner)
    let h1 := s.heap.modify (fun u => { u with partner := some partner }) user
    let h2 := h1.modify (fun p => { p with partner := some user }) partner
    { s with
      waitingRoom := w2
      heap := h2
      log := s.log ++ [Effect.send user (ServerEvent.matched partner),
                       Effect.send partner (ServerEvent.matched user)] }

/-- `handleMessage(sender, message)` (lines 117-137) with `Date.now() = now` and
`message.text = text`. -/
def handleMessage (s : Server) (sender : Nat) (text : List Char) (now : Nat) : Server :=
  match s.heap[sender]? with
  | none => s
  | some u =>
    if (now : Int) - (u.lastMessageTime : Int) < 1000 then s
    else if u.messageCount > 30 then
      { s with
        heap := s.heap.modify
          (fun x => { x with messageCount := x.messageCount + 1,
                             readyState := wsClose x.readyState }) sender
        log := s.log ++ [Effect.close sender] }
    else
      let s1 : Server :=
        { s with
          heap := s.heap.modify
            (fun x => { x with messageCount := x.messageCount + 1,
                               lastMessageTime := now }) sender }
      if jsLength text > 500 || containsBannedWords text then s1
      else
        match u.partner with
        | none => s1
        | some p =>
          if p ∈ s.activeConnections then
            { s1 with log := s1.log ++ [Effect.send p (ServerEvent.message text sender)] }
          else s1

/-- `handleDisconnect(user)` (lines 139-149). -/
def handleDisconnect (s : Server) (user : Nat) : Server :=
  match s.heap[user]? with
  | none => s
  | some u =>
    let s1 : Server :=
      match u.partner with
      | none => s
      | some p =>
        if p ∈ s.activeConnections then
          { s with
            log := s.log ++ [Effect.send p ServerEvent.disconnect]
            heap := s.heap.modify (fun x => { x with partner := none }) p }
        else s
    if u.readyState = ReadyState.OPEN then
      { s1 with
        heap := s1.heap.modify (fun x => { x with readyState := ReadyState.CLOSING }) user
        log := s1.log ++ [Effect.close user] }
    else s1

/-- A parsed inbound message, by its `type` field; `other` is any type the `switch`
has no case for. -/
inductive ClientMessage where
  | startChat (interests : List String) (strictMatch : Bool)
  | message (text : List Char)
  | typing (isTyping : Bool)
  | disconnect
  | other
  deriving DecidableEq, Repr

/-- What the event loop delivers: a new connection, a message on the socket of
session `ws` (handled at time `now`), or the close notification of that socket. -/
inductive Event where
  | connection
  | message (ws : Nat) (m : ClientMessage) (now : Nat)
  | close (ws : Nat)
  deriving DecidableEq, Repr

/-- The `connection` handler up to the registration of the listeners (lines 45-54). -/
def onConnection (s : Server) : Server :=
  let user := s.heap.length
  { s with
    onlineUsers := s.onlineUsers + 1
    heap := s.heap ++ [UserSession.fresh]
    activeConnections := s.activeConnections ++ [user]
    log := s.log ++ [Effect.send user (ServerEvent.init user (s.onlineUsers + 1))] }

/-- The `start-chat` case (lines 60-65) followed by its deferred `matchUsers(user)`. -/
def onStartChat (s : Server) (user : Nat) (interests : List String) (strictMatch : Bool) :
    Server :=
  let s1 : Server :=
    { s with
      heap := s.heap.modify
        (fun x => { x with interests := interests, strictMatch := strictMatch }) user
      waitingRoom := s.waitingRoom ++ [user] }
  matchUsers s1 user

/-- The `typing` case (lines 71-78): `activeConnections.get(user.partner)` is
`undefined` for a partner that is no longer registered, and reading `.ws` throws. -/
def onTyping (s : Server) (user : Nat) (isTyping : Bool) : Option Server :=
  match s.partnerOf user with
  | none => some s
  | some p =>
    if p ∈ s.activeConnections then
      some { s with log := s.log ++ [Effect.send p (ServerEvent.typing isTyping)] }
    else none

/-- The `message` listener of the socket of `user` (lines 56-84). -/
def onMessage (s : Server) (user : Nat) (m : ClientMessage) (now : Nat) : Option Server :=
  match m with
  | ClientMessage.startChat interests strictMatch =>
    some (onStartChat s user interests strictMatch)
  | ClientMessage.message text => some (handleMessage s user text now)
  | ClientMessage.typing isTyping => onTyping s user isTyping
  | ClientMessage.disconnect => some (handleDisconnect s user)
  | ClientMessage.other => some s

/-- The `close` listener of the socket of `user` (lines 86-90); the socket is
already `CLOSED` when the listener runs. -/
def onClose (s : Server) (user : Nat) : Server :=
  let s0 : Server :=
    { s with
      heap := s.heap.modify (fun x => { x with readyState := ReadyState.CLOSED }) user }
  let s1 : Server := { s0 with onlineUsers := s0.onlineUsers - 1 }
  let s2 := handleDisconnect s1 user
  { s2 with activeConnections := s2.activeConnections.filter (fun k => k != user) }

/-- The socket of `user` exists and has not delivered its close notification: the
only sockets whose listeners can still run. -/
def Server.live (s : Server) (user : Nat) : Bool :=
  match s.heap[user]? with
  | none => false
  | some u => u.readyState != ReadyState.CLOSED

/-- One event of the event loop.  An event for a socket that does not exist or has
already been closed cannot occur and leaves the state alone. -/
def step (s : Server) (e : Event) : Option Server :=
  match e with
  | Event.connection => some (onConnection s)
  | Event.message ws m now => if s.live ws then onMessage s ws m now else some s
  | Event.close ws => if s.live ws then some (onClose s ws) else some s

/-- A sequence of events from state `s`; `none` when a handler threw. -/
def run (s : Server) : List Event → Option Server
  | [] => some s
  | e :: es => (step s e).bind (fun t => run t es)

/-- The effects appended to the log between state `s` and a later state `t`. -/
def emitted (s t : Server) : List Effect :=
  t.log.drop s.log.length

/-- An effect is a `ws.send` of a chat `message` event. -/
def Effect.isMessage : Effect → Bool
  | Effect.send _ (ServerEvent.message _ _) => true
  | _ => false

/-- An effect is a `ws.send`. -/
def Effect.isSend : Effect → Bool
  | Effect.send _ _ => true
  | _ => false

/-- An effect is a `ws.send` of a `matched` event. -/
def Effect.isMatched : Effect → Bool
  | Effect.send _ (ServerEvent.matched _) => true
  | _ => false

/-! ## Definitions used to state the properties -/

/-- The compatibility of two sessions in the words of the specification: neither
has `strictMatch`, or the two interest lists share an element. -/
def Compatible (d x : UserSession) : Prop :=
  (d.strictMatch = false ∧ x.strictMatch = false) ∨ ∃ i ∈ d.interests, i ∈ x.interests

instance instDecidableCompatible (d x : UserSession) : Decidable (Compatible d x) := by
  unfold Compatible
  infer_instance

/-- Entry `x` of the waiting room is a session other than `d` that is compatible
with the session `d`. -/
def Candidate (s : Server) (d x : Nat) : Prop :=
  ∃ D X, s.heap[d]? = some D ∧ s.heap[x]? = some X ∧ x ≠ d ∧ Compatible D X

/-- Four connected non-strict sessions, the first three waiting. -/
def roomABC : Server :=
  { onlineUsers := 4, waitingRoom := [0, 1, 2], activeConnections := [0, 1, 2, 3],
    heap := [UserSession.fresh, UserSession.fresh, UserSession.fresh, UserSession.fresh],
    log := [] }

/-- The test of one loop iteration, as a predicate on the entry. -/
def accepts (heap : List UserSession) (newUser : Nat) (n : UserSession) (user : Nat) : Bool :=
  match heap[user]? with
  | none => false
  | some u =>
    !(decide (user = newUser)) &&
      !((n.strictMatch || u.strictMatch) && (commonInterests n u).length == 0)

/-- The conditions under which a chat message is forwarded, in the words of the
specification: the rate window has elapsed, the flood counter is at most 30, the
text has at most 500 code units and no banned word, and the partner is set and
registered. -/
def Forwardable (s : Server) (u : UserSession) (text : List Char) (now : Nat) : Prop :=
  1000 ≤ (now : Int) - (u.lastMessageTime : Int) ∧ u.messageCount ≤ 30 ∧
    jsLength text ≤ 500 ∧ containsBannedWords text = false ∧
    ∃ p, u.partner = some p ∧ p ∈ s.activeConnections

/-- A text of exactly 500 one-unit characters. -/
def text500 : List Char := List.replicate 500 'a'

/-- A text of 501 one-unit characters. -/
def text501 : List Char := List.replicate 501 'a'

/-- Sessions `0` and `1` connected and paired with each other, nothing sent yet. -/
def pairedState : Server :=
  { onlineUsers := 2, waitingRoom := [], activeConnections := [0, 1],
    heap := [{ UserSession.fresh with partner := some 1 },
             { UserSession.fresh with partner := some 0 }],
    log := [] }

/-- The rate-limit test of `handleMessage` lets a call at time `now` through. -/
def passesRateLimit (s : Server) (sender : Nat) (now : Nat) : Bool :=
  match s.heap[sender]? with
  | none => false
  | some u => decide (1000 ≤ (now : Int) - (u.lastMessageTime : Int))

/-- Successive `message` events of one sender, each a text and the time at which
it is handled. -/
def relayAll (s : Server) (sender : Nat) : List (List Char × Nat) → Server
  | [] => s
  | m :: rest => relayAll (handleMessage s sender m.1 m.2) sender rest

/-- For each call of a sequence of `message` events: whether it passed the rate
limit, and whether it called `ws.close()` on the sender's socket. -/
def callTrace (s : Server) (sender : Nat) : List (List Char × Nat) → List (Bool × Bool)
  | [] => []
  | m :: rest =>
    (passesRateLimit s sender m.2,
      decide (Effect.close sender ∈ emitted s (handleMessage s sender m.1 m.2)))
      :: callTrace (handleMessage s sender m.1 m.2) sender rest

/-- The number of `message` events sent between two states. -/
def forwardedCount (s t : Server) : Nat :=
  ((emitted s t).filter Effect.isMessage).length

/-- `n` messages with the text `hi`, handled at times `1000 * (k + 1)` after `start`. -/
def spacedBurst (start : Nat) : Nat → List (List Char × Nat)
  | 0 => []
  | n + 1 => (['h', 'i'], start + 1000) :: spacedBurst (start + 1000) n

/-- The text `v` spells the lower-case word `w` in some mixture of upper and lower
case: letter by letter, it has the letter of `w` or its upper-case form. -/
def CaseVariant (v w : List Char) : Prop :=
  List.Forall₂ (fun c l => c = l ∨ c = l.toUpper) v w

/-- Sessions `0` and `1` connected; session `0` has sent `start-chat` twice and
session `1` has just been pushed by its own `start-chat`. -/
def dupRoom : Server :=
  { onlineUsers := 2, waitingRoom := [0, 0, 1], activeConnections := [0, 1],
    heap := [UserSession.fresh, UserSession.fresh],
    log := [Effect.send 0 (ServerEvent.init 0 1), Effect.send 1 (ServerEvent.init 1 2)] }

/-- Two connections, then `start-chat` twice from session `0` and once from
session `1`. -/
def dupTrace : List Event :=
  [Event.connection, Event.connection,
   Event.message 0 (ClientMessage.startChat [] false) 0,
   Event.message 0 (ClientMessage.startChat [] false) 0,
   Event.message 1 (ClientMessage.startChat [] false) 0]

/-- Session `0` connected and waiting with the interest `music`; session `1`
connected. -/
def strictRoom : Server :=
  { onlineUsers := 2, waitingRoom := [0], activeConnections := [0, 1],
    heap := [{ UserSession.fresh with interests := ["music"] }, UserSession.fresh],
    log := [] }

/-- The pairing invariant in the words of the specification: for registered
sessions `A` and `B`, if `A.partner` is `B` then `B.partner` is `A` and neither is
in the waiting room. -/
def PairingInvariant (s : Server) : Prop :=
  ∀ a ∈ s.activeConnections, ∀ b ∈ s.activeConnections, s.partnerOf a = some b →
    s.partnerOf b = some a ∧ a ∉ s.waitingRoom ∧ b ∉ s.waitingRoom

/-- The session has a partner that is still registered. -/
def Server.hasRegisteredPartner (s : Server) (u : Nat) : Bool :=
  match s.partnerOf u with
  | none => false
  | some p => decide (p ∈ s.activeConnections)

/-- An event of an orderly client: `start-chat` comes only from a session that is
unpaired and not in the waiting room, and an explicit `disconnect` request only
from a session without a registered partner.  Events on sockets that are not live
are not restricted (they do nothing). -/
def orderlyEvent (s : Server) (e : Event) : Bool :=
  match e with
  | Event.message ws (ClientMessage.startChat _ _) _ =>
    !s.live ws || (decide (s.partnerOf ws = none) && decide (ws ∉ s.waitingRoom))
  | Event.message ws ClientMessage.disconnect _ =>
    !s.live ws || !s.hasRegisteredPartner ws
  | _ => true

/-- Every event of the sequence is orderly in the state in which it is handled. -/
def orderly (s : Server) : List Event → Bool
  | [] => true
  | e :: es =>
    orderlyEvent s e &&
      match step s e with
      | none => true
      | some t => orderly t es

/-- Two sessions are paired, then session `0` sends an explicit `disconnect`. -/
def disconnectTrace : List Event :=
  [Event.connection, Event.connection,
   Event.message 0 (ClientMessage.startChat [] false) 0,
   Event.message 1 (ClientMessage.startChat [] false) 0,
   Event.message 0 ClientMessage.disconnect 0]

/-- Two sessions are paired, then session `0` sends `start-chat` again. -/
def restartTrace : List Event :=
  [Event.connection, Event.connection,
   Event.message 0 (ClientMessage.startChat [] false) 0,
   Event.message 1 (ClientMessage.startChat [] false) 0,
   Event.message 0 (ClientMessage.startChat [] false) 0]

/-- Three connections; sessions `0` and `1` are paired, session `0` asks again and
is paired with session `2`. -/
def rematchTrace : List Event :=
  [Event.connection, Event.connection, Event.connection,
   Event.message 0 (ClientMessage.startChat [] false) 0,
   Event.message 1 (ClientMessage.startChat [] false) 0,
   Event.message 0 (ClientMessage.startChat [] false) 0,
   Event.message 2 (ClientMessage.startChat [] false) 0]

/-- An orderly run: two sessions are paired, exchange a message and a typing
notice, and the first one closes. -/
def orderlyTrace : List Event :=
  [Event.connection, Event.connection,
   Event.message 0 (ClientMessage.startChat [] false) 0,
   Event.message 1 (ClientMessage.startChat [] false) 0,
   Event.message 0 (ClientMessage.message ['h', 'i']) 5000,
   Event.message 1 (ClientMessage.typing true) 5001,
   Event.close 0]

/-- The partner field read from a heap. -/
def partnerIn (heap : List UserSession) (x : Nat) : Option Nat :=
  (heap[x]?).bind UserSession.partner

/-- Liveness of a socket read from a heap. -/
def liveIn (heap : List UserSession) (x : Nat) : Bool :=
  match heap[x]? with
  | none => false
  | some u => u.readyState != ReadyState.CLOSED

/-- The inductive invariant behind the pairing invariant. -/
structure Inv (s : Server) : Prop where
  symm : ∀ a ∈ s.activeConnections, ∀ b ∈ s.activeConnections,
    partnerIn s.heap a = some b → partnerIn s.heap b = some a
  waiting : ∀ w ∈ s.waitingRoom, partnerIn s.heap w = none
  nodup : s.waitingRoom.Nodup
  bound : ∀ x p, partnerIn s.heap x = some p → p < s.heap.length
  registered : ∀ x, liveIn s.heap x = true → x ∈ s.activeConnections

/-- The fields of a session object other than `partner` (the socket state is not a
field of the session: it belongs to the `ws` object the session refers to). -/
def UserSession.sameData (x y : UserSession) : Prop :=
  y.interests = x.interests ∧ y.strictMatch = x.strictMatch ∧
    y.lastMessageTime = x.lastMessageTime ∧ y.messageCount = x.messageCount

/-- Session `0` with interest `music` and `strictMatch`, session `1` with interests
`chess` and `music`, both connected. -/
def interestRoom : Server :=
  { onlineUsers := 2, waitingRoom := [], activeConnections := [0, 1],
    heap := [{ UserSession.fresh with interests := ["music"], strictMatch := true },
             { UserSession.fresh with interests := ["chess", "music"] }],
    log := [] }

/-- An explicit `disconnect` of a paired session followed by the close
notification of its socket. -/
def disconnectCloseTrace : List Event :=
  disconnectTrace ++ [Event.close 0]

/-- Session `0` waits and closes; session `1` then connects and asks for a match. -/
def ghostTrace : List Event :=
  [Event.connection,
   Event.message 0 (ClientMessage.startChat [] false) 0,
   Event.close 0,
   Event.connection,
   Event.message 1 (ClientMessage.startChat [] false) 0]

/-- The state after session `0` waited and closed and session `1` was matched with
it: the partner of session `1` is no longer registered. -/
def ghostState : Server :=
  { onlineUsers := 1, waitingRoom := [], activeConnections := [1],
    heap := [{ UserSession.fresh with partner := some 1, readyState := ReadyState.CLOSED },
             { UserSession.fresh with partner := some 0 }],
    log := [Effect.send 0 (ServerEvent.init 0 1), Effect.send 1 (ServerEvent.init 1 1),
            Effect.send 1 (ServerEvent.matched 0), Effect.send 0 (ServerEvent.matched 1)] }

/-- The state in which the deferred `matchUsers(user)` of a `start-chat` runs: the
handler has stored `interests` and `strictMatch` and pushed `user` (lines 61-63). -/
def afterPush (s : Server) (user : Nat) (interests : List String) (strictMatch : Bool) :
    Server :=
  { s with
    heap := s.heap.modify
      (fun x => { x with interests := interests, strictMatch := strictMatch }) user
    waitingRoom := s.waitingRoom ++ [user] }

/-- Four connected sessions; sessions `2`, `1` and `3` wait in that order, session
`1` with the interest `music`. -/
def threeWaiting : Server :=
  { onlineUsers := 4, waitingRoom := [2, 1, 3], activeConnections := [0, 1, 2, 3],
    heap := [UserSession.fresh,
             { UserSession.fresh with interests := ["music"] },
             UserSession.fresh, UserSession.fresh],
    log := [] }

/-- The waiting-room invariant in the words of the specification: no session is
in the waiting room more than once, and every session in it has `partner = null`. -/
def WaitingRoomInvariant (s : Server) : Prop :=
  s.waitingRoom.Nodup ∧ ∀ w ∈ s.waitingRoom, s.partnerOf w = none

/-- The event is not a `start-chat` from a live session that is paired or already
in the waiting room. -/
def guardedStart (s : Server) (e : Event) : Bool :=
  match e with
  | Event.message ws (ClientMessage.startChat _ _) _ =>
    !s.live ws || (decide (s.partnerOf ws = none) && decide (ws ∉ s.waitingRoom))
  | _ => true

/-- Every `start-chat` of the sequence comes from a session that is, at that
moment, unpaired and not in the waiting room. -/
def guardedStarts (s : Server) : List Event → Bool
  | [] => true
  | e :: es =>
    guardedStart s e &&
      match step s e with
      | none => true
      | some t => guardedStarts t es

/-- One session sends `start-chat` twice. -/
def doubleStartTrace : List Event :=
  [Event.connection,
   Event.message 0 (ClientMessage.startChat [] false) 0,
   Event.message 0 (ClientMessage.startChat [] false) 0]

/-- The invariant behind the online-user count: the counter is the number of
registered sessions, no key is registered twice, every live socket is registered
and every registered key is an existing session. -/
structure CountInv (s : Server) : Prop where
  count : s.onlineUsers = (s.activeConnections.length : Int)
  nodup : s.activeConnections.Nodup
  registered : ∀ x, liveIn s.heap x = true → x ∈ s.activeConnections
  bound : ∀ x ∈ s.activeConnections, x < s.heap.length

/-- Three connections, a pairing, an explicit `disconnect` and two closes. -/
def countTrace : List Event :=
  [Event.connection, Event.connection, Event.connection,
   Event.message 0 (ClientMessage.startChat [] false) 0,
   Event.message 1 (ClientMessage.startChat [] false) 0,
   Event.message 0 ClientMessage.disconnect 0,
   Event.close 0, Event.close 0, Event.close 2]

/-- Every session of the first heap is still there in the second, with a flood
counter that is at least as large. -/
def CountLe (h k : List UserSession) : Prop :=
  ∀ (x : Nat) (X : UserSession), h[x]? = some X →
    ∃ Y : UserSession, k[x]? = some Y ∧ X.messageCount ≤ Y.messageCount

/-- Session `0` is paired with session `1` and has used up its flood budget. -/
def floodedState : Server :=
  { onlineUsers := 2, waitingRoom := [], activeConnections := [0, 1],
    heap := [{ UserSession.fresh with partner := some 1, messageCount := 31 },
             { UserSession.fresh with partner := some 0 }],
    log := [] }

/-- Session `1` closes, both ask for a new match, and session `0` sends a message
much later. -/
def laterTrace : List Event :=
  [Event.close 1,
   Event.connection,
   Event.message 0 (ClientMessage.startChat [] false) 0,
   Event.message 2 (ClientMessage.startChat [] false) 0,
   Event.message 0 (ClientMessage.message ['h', 'i']) 9000000]

/-! ## `findMatch` -/

theorem commonInterests_eq_nil_iff (n u : UserSession) :
    (commonInterests n u).length = 0 ↔ ¬ ∃ i ∈ n.interests, i ∈ u.interests := by
  unfold commonInterests
  rw [List.length_eq_zero, List.filter_eq_nil_iff]
  simp

theorem findMatchFrom_eq_find (heap : List UserSession) (newUser : Nat) (n : UserSession)
    (l : List Nat) :
    findMatchFrom heap newUser n l = l.find? (accepts heap newUser n) := by
  induction l with
  | nil => rfl
  | cons x rest ih =>
    unfold findMatchFrom
    rw [List.find?_cons]
    cases hx : heap[x]? with
    | none => simp [accepts, hx, ih]
    | some u =>
      by_cases h1 : x = newUser
      · subst h1
        simp [accepts, hx, ih]
      · by_cases h2 : ((n.strictMatch || u.strictMatch) && (commonInterests n u).length == 0) = true
        · simp only [accepts, hx, h1, h2, ih]
          simp
        · simp only [accepts, hx, h1, h2, ih]
          simp

theorem accepts_iff (s : Server) (d : Nat) (D : UserSession) (hd : s.heap[d]? = some D)
    (x : Nat) : accepts s.heap d D x = true ↔ Candidate s d x := by
  unfold accepts Candidate
  cases hx : s.heap[x]? with
  | none => simp
  | some X =>
    simp only [hd, Option.some.injEq, exists_and_left, exists_eq_left', Bool.and_eq_true,
      Bool.not_eq_true', decide_eq_false_iff_not, Bool.and_eq_false_imp, Bool.or_eq_true,
      beq_eq_false_iff_ne, ne_eq]
    have hc := commonInterests_eq_nil_iff D X
    unfold Compatible
    constructor
    · rintro ⟨h1, h2⟩
      refine ⟨h1, ?_⟩
      by_cases hs : D.strictMatch = true ∨ X.strictMatch = true
      · right
        have := h2 hs
        by_contra hne
        exact this (hc.mpr hne)
      · left
        push_neg at hs
        simpa using hs
    · rintro ⟨h1, h2⟩
      refine ⟨h1, ?_⟩
      intro hs hz
      rcases h2 with ⟨ha, hb⟩ | hex
      · rcases hs with hs | hs
        · simp [ha] at hs
        · simp [hb] at hs
      · exact (hc.mp hz) hex

/-- **C2.** `findMatch(D)` returns the earliest entry of the waiting room that is
a session other than `D` and compatible with `D` (neither has `strictMatch`, or the
interest lists share an element); it returns `null` exactly when there is no such
entry; and with waiting room `[A, B, C]` of non-strict sessions and a non-strict `D`
other than `A` it returns `A`. -/
theorem findMatch_first_fit (s : Server) (d : Nat) :
    (∀ p, findMatch s d = some p ↔
      ∃ pre post, s.waitingRoom = pre ++ p :: post ∧ Candidate s d p ∧
        ∀ x ∈ pre, ¬ Candidate s d x) ∧
    (findMatch s d = none ↔ ∀ x ∈ s.waitingRoom, ¬ Candidate s d x) ∧
    (∀ a b c A D, s.waitingRoom = [a, b, c] → s.heap[a]? = some A → s.heap[d]? = some D →
      A.strictMatch = false → D.strictMatch = false → d ≠ a → findMatch s d = some a) := by
  have key : ∀ D, s.heap[d]? = some D → ∀ p, findMatch s d = some p ↔
      ∃ pre post, s.waitingRoom = pre ++ p :: post ∧ Candidate s d p ∧
        ∀ x ∈ pre, ¬ Candidate s d x := by
    intro D hd p
    unfold findMatch
    rw [hd]
    simp only [findMatchFrom_eq_find, List.find?_eq_some]
    constructor
    · rintro ⟨hp, pre, post, hw, hpre⟩
      refine ⟨pre, post, hw, (accepts_iff s d D hd p).mp hp, ?_⟩
      intro x hx hc
      have := hpre x hx
      rw [(accepts_iff s d D hd x).mpr hc] at this
      simp at this
    · rintro ⟨pre, post, hw, hp, hpre⟩
      refine ⟨(accepts_iff s d D hd p).mpr hp, pre, post, hw, ?_⟩
      intro x hx
      have := hpre x hx
      rw [← accepts_iff s d D hd x] at this
      simpa using this
  have knone : findMatch s d = none ↔ ∀ x ∈ s.waitingRoom, ¬ Candidate s d x := by
    cases hd : s.heap[d]? with
    | none =>
      simp only [findMatch, hd, true_iff]
      rintro x _ ⟨D, X, h, _⟩
      rw [hd] at h
      cases h
    | some D =>
      simp only [findMatch, hd, findMatchFrom_eq_find, List.find?_eq_none]
      constructor
      · intro h x hx hc
        exact h x hx ((accepts_iff s d D hd x).mpr hc)
      · intro h x hx hc
        exact h x hx ((accepts_iff s d D hd x).mp hc)
  refine ⟨?_, knone, ?_⟩
  · intro p
    cases hd : s.heap[d]? with
    | none =>
      have h1 : findMatch s d = none := by simp [findMatch, hd]
      rw [h1]
      constructor
      · intro h
        cases h
      · rintro ⟨_, _, _, ⟨D, X, h, _⟩, _⟩
        rw [hd] at h
        cases h
    | some D => exact key D hd p
  · intro a b c A D hw ha hd hA hD hne
    rw [key D hd a]
    refine ⟨[], [b, c], by simpa using hw, ⟨D, A, hd, ha, fun h => hne h.symm, Or.inl ⟨hD, hA⟩⟩, ?_⟩
    intro x hx
    cases hx

/-- The first-fit example on the waiting room `[0, 1, 2]` and the new session `3`. -/
theorem findMatch_first_fit_witness : findMatch roomABC 3 = some 0 :=
  (findMatch_first_fit roomABC 3).2.2
    0 1 2 UserSession.fresh UserSession.fresh rfl rfl rfl rfl rfl (by decide)

/-! ## `handleMessage` -/

theorem emitted_append (s : Server) (l : List Effect) (w a : List Nat) (h : List UserSession)
    (n : Int) :
    emitted s { onlineUsers := n, waitingRoom := w, activeConnections := a, heap := h,
                log := s.log ++ l } = l := by
  simp [emitted]

theorem emitted_self (s : Server) : emitted s s = [] := by
  simp [emitted]

theorem emitted_same_log (s : Server) (w a : List Nat) (h : List UserSession) (n : Int) :
    emitted s { onlineUsers := n, waitingRoom := w, activeConnections := a, heap := h,
                log := s.log } = [] := by
  simp [emitted]

theorem jsLength_replicate_a (n : Nat) : jsLength (List.replicate n 'a') = n := by
  induction n with
  | zero => rfl
  | succ k ih =>
    have h : jsLength (List.replicate (k + 1) 'a') = 1 + jsLength (List.replicate k 'a') := by
      simp [jsLength, List.replicate_succ]
    omega

/-- **C9.** `handleMessage` forwards exactly one `message` event, with the text
unchanged and the sender's id, to the partner when the rate window has elapsed, the
counter before the call is at most 30, the text has at most 500 code units and no
banned word, and the partner is set and registered; in every other case it sends
nothing to anyone.  A text of length 500 passes the length test, one of 501 is
dropped. -/
theorem handleMessage_forwards_iff (s : Server) (sender : Nat) (u : UserSession)
    (text : List Char) (now : Nat) (hu : s.heap[sender]? = some u) :
    (Forwardable s u text now →
      ∃ p, u.partner = some p ∧ p ∈ s.activeConnections ∧
        emitted s (handleMessage s sender text now)
          = [Effect.send p (ServerEvent.message text sender)]) ∧
    (¬ Forwardable s u text now →
      ∀ e ∈ emitted s (handleMessage s sender text now), e.isSend = false) ∧
    (jsLength text500 = 500 ∧ jsLength text501 = 501) := by
  refine ⟨?_, ?_, jsLength_replicate_a 500, jsLength_replicate_a 501⟩
  · rintro ⟨hrate, hcount, hlen, hban, p, hp, hact⟩
    refine ⟨p, hp, hact, ?_⟩
    unfold handleMessage
    simp only [hu]
    rw [if_neg (by omega), if_neg (by omega)]
    simp only [hban, Bool.or_false, decide_eq_true_eq]
    rw [if_neg (by omega)]
    simp only [hp, hact, if_true]
    exact emitted_append s _ _ _ _ _
  · intro hnot e he
    unfold handleMessage at he
    simp only [hu] at he
    split at he
    · simp [emitted_self] at he
    · split at he
      · rw [emitted_append] at he
        simp only [List.mem_singleton] at he
        subst he
        rfl
      · split at he
        · rw [emitted_same_log] at he
          cases he
        · split at he
          · rw [emitted_same_log] at he
            cases he
          · split at he
            · exfalso
              apply hnot
              rename_i h1 h2 h3 _ p hp hact
              simp only [Bool.or_eq_true, decide_eq_true_eq, not_or, Bool.not_eq_true] at h3
              exact ⟨by omega, by omega, by omega, h3.2, p, hp, hact⟩
            · rw [emitted_same_log] at he
              cases he

/-- The forwarding case on the paired state: the first message of session `0`, at
time 1000, reaches session `1`. -/
theorem handleMessage_forwards_iff_witness :
    ∃ p, (UserSession.partner { UserSession.fresh with partner := some 1 }) = some p ∧
      p ∈ pairedState.activeConnections ∧
      emitted pairedState (handleMessage pairedState 0 ['h', 'i'] 1000)
        = [Effect.send p (ServerEvent.message ['h', 'i'] 0)] :=
  (handleMessage_forwards_iff pairedState 0 { UserSession.fresh with partner := some 1 }
    ['h', 'i'] 1000 rfl).1
    ⟨by decide, by decide, by decide, by decide, 1, rfl, by decide⟩

theorem handleMessage_cases (s : Server) (sender : Nat) (u : UserSession) (text : List Char)
    (now : Nat) (hu : s.heap[sender]? = some u) :
    ((now : Int) - (u.lastMessageTime : Int) < 1000 ∧ handleMessage s sender text now = s) ∨
    (1000 ≤ (now : Int) - (u.lastMessageTime : Int) ∧ 30 < u.messageCount ∧
      (handleMessage s sender text now).heap[sender]? =
        some { u with messageCount := u.messageCount + 1, readyState := wsClose u.readyState } ∧
      (handleMessage s sender text now).log = s.log ++ [Effect.close sender]) ∨
    (1000 ≤ (now : Int) - (u.lastMessageTime : Int) ∧ u.messageCount ≤ 30 ∧
      (handleMessage s sender text now).heap[sender]? =
        some { u with messageCount := u.messageCount + 1, lastMessageTime := now } ∧
      ((handleMessage s sender text now).log = s.log ∨
        ∃ p, (handleMessage s sender text now).log =
          s.log ++ [Effect.send p (ServerEvent.message text sender)])) := by
  unfold handleMessage
  simp only [hu]
  by_cases h1 : (now : Int) - (u.lastMessageTime : Int) < 1000
  · left
    simp [h1]
  · right
    rw [if_neg h1]
    by_cases h2 : u.messageCount > 30
    · left
      rw [if_pos h2]
      refine ⟨by omega, h2, ?_, rfl⟩
      simp [List.getElem?_modify, hu]
    · right
      rw [if_neg h2]
      refine ⟨by omega, by omega, ?_, ?_⟩
      · split
        · simp [List.getElem?_modify, hu]
        · split
          · simp [List.getElem?_modify, hu]
          · split <;> simp [List.getElem?_modify, hu]
      · split
        · left
          rfl
        · split
          · left
            rfl
          · split
            · right
              exact ⟨_, rfl⟩
            · left
              rfl

theorem emitted_of_log (s t : Server) (l : List Effect) (h : t.log = s.log ++ l) :
    emitted s t = l := by
  simp [emitted, h]

theorem handleMessage_log (s : Server) (sender : Nat) (text : List Char) (now : Nat) :
    ∃ l, (handleMessage s sender text now).log = s.log ++ l := by
  cases hu : s.heap[sender]? with
  | none => exact ⟨[], by simp [handleMessage, hu]⟩
  | some u =>
    rcases handleMessage_cases s sender u text now hu with
      ⟨_, h⟩ | ⟨_, _, _, h⟩ | ⟨_, _, _, h | ⟨p, h⟩⟩
    · exact ⟨[], by simp [h]⟩
    · exact ⟨_, h⟩
    · exact ⟨[], by simp [h]⟩
    · exact ⟨_, h⟩

theorem relayAll_log (sender : Nat) (msgs : List (List Char × Nat)) :
    ∀ s : Server, ∃ l, (relayAll s sender msgs).log = s.log ++ l := by
  induction msgs with
  | nil => exact fun s => ⟨[], by simp [relayAll]⟩
  | cons m rest ih =>
    intro s
    obtain ⟨l1, h1⟩ := handleMessage_log s sender m.1 m.2
    obtain ⟨l2, h2⟩ := ih (handleMessage s sender m.1 m.2)
    exact ⟨l1 ++ l2, by simp [relayAll, h2, h1]⟩

theorem forwardedCount_trans (s t r : Server) (l1 l2 : List Effect)
    (h1 : t.log = s.log ++ l1) (h2 : r.log = t.log ++ l2) :
    forwardedCount s r = forwardedCount s t + forwardedCount t r := by
  have h3 : r.log = s.log ++ (l1 ++ l2) := by rw [h2, h1, List.append_assoc]
  unfold forwardedCount
  rw [emitted_of_log s t l1 h1, emitted_of_log t r l2 h2, emitted_of_log s r _ h3]
  simp

theorem forwardedCount_self (s : Server) : forwardedCount s s = 0 := by
  simp [forwardedCount, emitted]

theorem relayAll_absent (sender : Nat) (msgs : List (List Char × Nat)) (s : Server)
    (h : s.heap[sender]? = none) : relayAll s sender msgs = s := by
  induction msgs with
  | nil => rfl
  | cons m rest ih =>
    have : handleMessage s sender m.1 m.2 = s := by simp [handleMessage, h]
    simp [relayAll, this, ih]

theorem forwardedCount_budget (sender : Nat) (msgs : List (List Char × Nat)) :
    ∀ (s : Server) (u : UserSession), s.heap[sender]? = some u →
      forwardedCount s (relayAll s sender msgs) ≤ 31 - u.messageCount := by
  induction msgs with
  | nil =>
    intro s u _
    simp [relayAll, forwardedCount_self]
  | cons m rest ih =>
    intro s u hu
    obtain ⟨l1, h1⟩ := handleMessage_log s sender m.1 m.2
    obtain ⟨l2, h2⟩ := relayAll_log sender rest (handleMessage s sender m.1 m.2)
    have hsplit := forwardedCount_trans s _ _ l1 l2 h1 h2
    show forwardedCount s (relayAll (handleMessage s sender m.1 m.2) sender rest) ≤ _
    rw [hsplit]
    rcases handleMessage_cases s sender u m.1 m.2 hu with
      ⟨_, h⟩ | ⟨_, hc, hh, hl⟩ | ⟨_, hc, hh, hl⟩
    · rw [h, forwardedCount_self]
      have := ih s u hu
      omega
    · have h0 : forwardedCount s (handleMessage s sender m.1 m.2) = 0 := by
        unfold forwardedCount
        rw [emitted_of_log _ _ _ hl]
        rfl
      have := ih _ _ hh
      simp only at this
      omega
    · have h0 : forwardedCount s (handleMessage s sender m.1 m.2) ≤ 1 := by
        unfold forwardedCount
        rcases hl with hl | ⟨p, hl⟩
        · rw [emitted_of_log _ _ [] (by simpa using hl)]
          simp
        · rw [emitted_of_log _ _ _ hl]
          simp [Effect.isMessage]
      have := ih _ _ hh
      simp only at this
      omega

/-- **C5 (as amended).** For every sequence of `message` events of one sender, from
any state and with any texts and timestamps, at most 31 `message` events are
forwarded. -/
theorem handleMessage_forwards_at_most_31 (s : Server) (sender : Nat)
    (msgs : List (List Char × Nat)) :
    forwardedCount s (relayAll s sender msgs) ≤ 31 := by
  cases hu : s.heap[sender]? with
  | none => simp [relayAll_absent sender msgs s hu, forwardedCount_self]
  | some u =>
    have := forwardedCount_budget sender msgs s u hu
    omega

set_option maxRecDepth 200000 in
/-- **C5 (counterexample).** On the paired state, 31 messages of session `0` spaced
1000 ms apart are all forwarded to session `1`: more than 30. -/
theorem handleMessage_forwards_31 :
    forwardedCount pairedState (relayAll pairedState 0 (spacedBurst 0 31)) = 31 ∧
    ¬ forwardedCount pairedState (relayAll pairedState 0 (spacedBurst 0 31)) ≤ 30 := by
  decide

theorem handleMessage_close_mem_iff (s : Server) (sender : Nat) (u : UserSession)
    (text : List Char) (now : Nat) (hu : s.heap[sender]? = some u) :
    Effect.close sender ∈ emitted s (handleMessage s sender text now) ↔
      1000 ≤ (now : Int) - (u.lastMessageTime : Int) ∧ 30 < u.messageCount := by
  rcases handleMessage_cases s sender u text now hu with
    ⟨h1, h⟩ | ⟨h1, hc, _, hl⟩ | ⟨h1, hc, _, hl | ⟨p, hl⟩⟩
  · rw [h, emitted_self]
    simp only [List.not_mem_nil, false_iff, not_and]
    intro h2
    omega
  · rw [emitted_of_log _ _ _ hl]
    simp only [List.mem_singleton, true_iff]
    exact ⟨h1, hc⟩
  · rw [emitted_of_log _ _ [] (by simpa using hl)]
    simp only [List.not_mem_nil, false_iff, not_and]
    intro _
    omega
  · rw [emitted_of_log _ _ _ hl]
    simp only [List.mem_singleton, reduceCtorEq, false_iff, not_and]
    intro _
    omega

theorem callTrace_close_iff (sender : Nat) (msgs : List (List Char × Nat)) :
    ∀ (s : Server) (u : UserSession), s.heap[sender]? = some u →
      ∀ (pre : List (Bool × Bool)) (x : Bool × Bool) (post : List (Bool × Bool)),
        callTrace s sender msgs = pre ++ x :: post →
        (x.2 = true ↔
          x.1 = true ∧ 31 ≤ u.messageCount + (pre.filter (fun c => c.1)).length) := by
  induction msgs with
  | nil =>
    intro s u _ pre x post h
    simp [callTrace] at h
  | cons m rest ih =>
    intro s u hu pre x post h
    have hclose := handleMessage_close_mem_iff s sender u m.1 m.2 hu
    have hpass : passesRateLimit s sender m.2 = true ↔
        1000 ≤ (m.2 : Int) - (u.lastMessageTime : Int) := by
      simp [passesRateLimit, hu]
    cases pre with
    | nil =>
      simp only [callTrace, List.nil_append, List.cons.injEq] at h
      obtain ⟨hx, _⟩ := h
      subst hx
      simp only [decide_eq_true_eq, hclose, hpass, List.filter_nil, List.length_nil,
        Nat.add_zero]
      constructor
      · rintro ⟨h1, h2⟩
        exact ⟨h1, by omega⟩
      · rintro ⟨h1, h2⟩
        exact ⟨h1, by omega⟩
    | cons y pre1 =>
      simp only [callTrace, List.cons_append, List.cons.injEq] at h
      obtain ⟨hy, htail⟩ := h
      rcases handleMessage_cases s sender u m.1 m.2 hu with
        ⟨h1, hs⟩ | ⟨h1, _, hh, _⟩ | ⟨h1, _, hh, _⟩
      · have hy1 : y.1 = false := by
          rw [← hy]
          simp only [passesRateLimit, hu, decide_eq_false_iff_not]
          omega
        rw [hs] at htail
        have := ih s u hu pre1 x post htail
        simpa [List.filter_cons, hy1] using this
      · have hy1 : y.1 = true := by
          rw [← hy]
          exact hpass.mpr h1
        have := ih _ _ hh pre1 x post htail
        simp only [List.filter_cons, hy1, if_true, List.length_cons]
        simp only at this
        rw [this]
        constructor <;> rintro ⟨a, b⟩ <;> exact ⟨a, by omega⟩
      · have hy1 : y.1 = true := by
          rw [← hy]
          exact hpass.mpr h1
        have := ih _ _ hh pre1 x post htail
        simp only [List.filter_cons, hy1, if_true, List.length_cons]
        simp only at this
        rw [this]
        constructor <;> rintro ⟨a, b⟩ <;> exact ⟨a, by omega⟩

/-- **C6.** `handleMessage` calls `ws.close()` on the sender exactly when the
message passes the rate limit and `messageCount` before the increment is greater
than 30; on that call nothing else is emitted (nothing is forwarded) and
`lastMessageTime` keeps its value; and for a session whose counter starts at 0, a
call closes the connection exactly when it passes the rate limit and at least 31
earlier calls passed it, so the first 31 passing calls never close and the 32nd is
the first that does. -/
theorem handleMessage_closes_iff (s : Server) (sender : Nat) (u : UserSession)
    (hu : s.heap[sender]? = some u) :
    (∀ (text : List Char) (now : Nat),
      Effect.close sender ∈ emitted s (handleMessage s sender text now) ↔
      1000 ≤ (now : Int) - (u.lastMessageTime : Int) ∧ 30 < u.messageCount) ∧
    (∀ (text : List Char) (now : Nat),
      1000 ≤ (now : Int) - (u.lastMessageTime : Int) → 30 < u.messageCount →
      emitted s (handleMessage s sender text now) = [Effect.close sender] ∧
      ((handleMessage s sender text now).heap[sender]?).map UserSession.lastMessageTime
        = some u.lastMessageTime) ∧
    (u.messageCount = 0 →
      ∀ msgs pre x post, callTrace s sender msgs = pre ++ x :: post →
        (x.2 = true ↔ x.1 = true ∧ 31 ≤ (pre.filter (fun c => c.1)).length)) := by
  refine ⟨fun text now => handleMessage_close_mem_iff s sender u text now hu, ?_, ?_⟩
  · intro text now h1 h2
    rcases handleMessage_cases s sender u text now hu with
      ⟨h, _⟩ | ⟨_, _, hh, hl⟩ | ⟨_, hc, _, _⟩
    · omega
    · exact ⟨emitted_of_log _ _ _ hl, by rw [hh]; rfl⟩
    · omega
  · intro h0 msgs pre x post h
    have := callTrace_close_iff sender msgs s u hu pre x post h
    rw [h0, Nat.zero_add] at this
    exact this

set_option maxRecDepth 200000 in
/-- On the paired state, of 32 messages of session `0` spaced 1000 ms apart the
first 31 pass the rate limit without closing and the 32nd closes the connection. -/
theorem handleMessage_closes_iff_witness :
    callTrace pairedState 0 (spacedBurst 0 32)
      = List.replicate 31 (true, false) ++ (true, true) :: [] ∧
    (((true, true) : Bool × Bool).2 = true ↔ ((true, true) : Bool × Bool).1 = true ∧
      31 ≤ ((List.replicate 31 ((true, false) : Bool × Bool)).filter (fun c => c.1)).length) :=
  ⟨by decide,
   (handleMessage_closes_iff pairedState 0 { UserSession.fresh with partner := some 1 } rfl).2.2
      rfl (spacedBurst 0 32) (List.replicate 31 (true, false)) (true, true) [] (by decide)⟩

/-- **C7.** When a `message` event handled at `t1` passed the rate limit, a second
one handled at `t2` with `t1 ≤ t2 < t1 + 1000` sends nothing, whatever the texts. -/
theorem handleMessage_second_within_window (s : Server) (sender : Nat) (u : UserSession)
    (text1 text2 : List Char) (t1 t2 : Nat) (hu : s.heap[sender]? = some u)
    (hpass : 1000 ≤ (t1 : Int) - (u.lastMessageTime : Int))
    (hle : t1 ≤ t2) (hwin : (t2 : Int) - (t1 : Int) < 1000) :
    ∀ e ∈ emitted (handleMessage s sender text1 t1)
        (handleMessage (handleMessage s sender text1 t1) sender text2 t2),
      e.isSend = false := by
  intro e he
  rcases handleMessage_cases s sender u text1 t1 hu with
    ⟨h, _⟩ | ⟨_, hc, hh, _⟩ | ⟨_, _, hh, _⟩
  · omega
  · rcases handleMessage_cases _ sender _ text2 t2 hh with
      ⟨h, _⟩ | ⟨_, _, _, hl⟩ | ⟨_, hc2, _, _⟩
    · simp only at h
      omega
    · rw [emitted_of_log _ _ _ hl] at he
      simp only [List.mem_singleton] at he
      subst he
      rfl
    · simp only at hc2
      omega
  · rcases handleMessage_cases _ sender _ text2 t2 hh with
      ⟨_, hs⟩ | ⟨h, _, _, _⟩ | ⟨h, _, _, _⟩
    · rw [hs, emitted_self] at he
      cases he
    · simp only at h
      omega
    · simp only at h
      omega

/-- On the paired state a message at time 1000 passes the rate limit and one at
time 1500 sends nothing. -/
theorem handleMessage_second_within_window_witness :
    (emitted (handleMessage pairedState 0 ['h', 'i'] 1000)
        (handleMessage (handleMessage pairedState 0 ['h', 'i'] 1000) 0 ['y', 'o'] 1500)).all
      (fun e => !e.isSend) = true :=
  List.all_eq_true.mpr (fun e he => by
    rw [handleMessage_second_within_window pairedState 0
      { UserSession.fresh with partner := some 1 } ['h', 'i'] ['y', 'o'] 1000 1500 rfl
      (by decide) (by decide) (by decide) e he]
    rfl)

/-! ## `containsBannedWords` -/

theorem includes_iff_substring (text word : List Char) :
    includes text word = true ↔ word <:+: text := by
  unfold includes
  rw [List.any_eq_true]
  constructor
  · rintro ⟨t, ht, hp⟩
    rw [List.mem_tails] at ht
    rw [List.isPrefixOf_iff_prefix] at hp
    exact List.IsInfix.trans hp.isInfix ht.isInfix
  · intro h
    obtain ⟨t, hp, hs⟩ := List.infix_iff_prefix_suffix.mp h
    exact ⟨t, (List.mem_tails _ _).mpr hs, List.isPrefixOf_iff_prefix.mpr hp⟩

theorem bannedWords_letters :
    ∀ w ∈ bannedWords, ∀ l ∈ w, l.toLower = l ∧ l.toUpper.toLower = l := by
  decide

theorem toLowerCase_caseVariant (v w : List Char)
    (hw : ∀ l ∈ w, l.toLower = l ∧ l.toUpper.toLower = l) (h : CaseVariant v w) :
    toLowerCase v = w := by
  unfold CaseVariant at h
  induction h with
  | nil => rfl
  | @cons c l v1 w1 hc _ ih =>
    have hl := hw l (List.mem_cons_self _ _)
    have htail := ih (fun x hx => hw x (List.mem_cons_of_mem _ hx))
    unfold toLowerCase at htail ⊢
    rw [List.map_cons, htail]
    rcases hc with hc | hc
    · rw [hc, hl.1]
    · rw [hc, hl.2]

theorem containsBannedWords_of_variant (text v word : List Char) (hw : word ∈ bannedWords)
    (hv : CaseVariant v word) (hin : v <:+: text) : containsBannedWords text = true := by
  unfold containsBannedWords
  rw [List.any_eq_true]
  refine ⟨word, hw, ?_⟩
  rw [includes_iff_substring]
  obtain ⟨a, b, hab⟩ := hin
  refine ⟨toLowerCase a, toLowerCase b, ?_⟩
  rw [← hab]
  have := toLowerCase_caseVariant v word (bannedWords_letters word hw) hv
  unfold toLowerCase at this ⊢
  rw [List.map_append, List.map_append, this]

/-- **C8.** A text that contains a banned word (`badword`, `inappropriate`, `spam`)
spelled in any mixture of upper and lower case makes `containsBannedWords` true,
and `handleMessage` with that text sends no `message` event, in any state, for any
sender and at any time. -/
theorem banned_text_never_forwarded (text v word : List Char) (hw : word ∈ bannedWords)
    (hv : CaseVariant v word) (hin : v <:+: text) :
    containsBannedWords text = true ∧
    ∀ (s : Server) (sender now : Nat),
      ∀ e ∈ emitted s (handleMessage s sender text now), e.isMessage = false := by
  have hb := containsBannedWords_of_variant text v word hw hv hin
  refine ⟨hb, ?_⟩
  intro s sender now e he
  unfold handleMessage at he
  split at he
  · rw [emitted_self] at he
    cases he
  · split at he
    · rw [emitted_self] at he
      cases he
    · split at he
      · rw [emitted_append] at he
        simp only [List.mem_singleton] at he
        subst he
        rfl
      · simp only [hb, Bool.or_true, if_true] at he
        rw [emitted_same_log] at he
        cases he

/-- The text `say BadWORD now` contains `badword` in mixed case, and session `0` of
the paired state sending it at time 1000 forwards nothing. -/
theorem banned_text_never_forwarded_witness :
    containsBannedWords "say BadWORD now".toList = true ∧
    (emitted pairedState (handleMessage pairedState 0 "say BadWORD now".toList 1000)).all
      (fun e => !e.isMessage) = true :=
  ⟨(banned_text_never_forwarded "say BadWORD now".toList "BadWORD".toList "badword".toList
      (by decide) (by unfold CaseVariant; decide) ⟨"say ".toList, " now".toList, by decide⟩).1,
   List.all_eq_true.mpr (fun e he => by
    rw [(banned_text_never_forwarded "say BadWORD now".toList "BadWORD".toList
      "badword".toList (by decide) (by unfold CaseVariant; decide)
      ⟨"say ".toList, " now".toList, by decide⟩).2 pairedState 0 1000 e he]
    rfl)⟩

/-! ## `start-chat` and `matchUsers` -/

theorem getElem?_modify_ne (f : UserSession → UserSession) (heap : List UserSession)
    (i x : Nat) (h : x ≠ i) : (heap.modify f i)[x]? = heap[x]? := by
  rw [List.getElem?_modify]
  cases heap[x]? with
  | none => rfl
  | some X =>
    have hne : ¬ i = x := fun e => h e.symm
    simp [hne]

theorem getElem?_modify_eq (f : UserSession → UserSession) (heap : List UserSession)
    (i : Nat) : (heap.modify f i)[i]? = (heap[i]?).map f := by
  rw [List.getElem?_modify]
  cases heap[i]? with
  | none => rfl
  | some X => simp

theorem findMatch_eq_none_of_rejects (s : Server) (d : Nat) (D : UserSession)
    (hd : s.heap[d]? = some D) (h : ∀ w ∈ s.waitingRoom, accepts s.heap d D w = false) :
    findMatch s d = none := by
  unfold findMatch
  simp only [hd, findMatchFrom_eq_find, List.find?_eq_none]
  intro w hw
  simp [h w hw]

/-- **C3.** When a registered, unpaired session `D` sends `start-chat` with
`strictMatch = true` and no other waiting session shares one of the requested
interests, then after the step and its deferred `matchUsers(D)` the waiting room
is the old one with `D` appended, `D.partner` is still `null`, every other session
object is unchanged, and nothing has been sent. -/
theorem startChat_strict_without_common_interest (s : Server) (d : Nat) (D : UserSession)
    (interests : List String) (now : Nat)
    (hD : s.heap[d]? = some D) (hlive : D.readyState ≠ ReadyState.CLOSED)
    (hp : D.partner = none)
    (hno : ∀ w ∈ s.waitingRoom, w ≠ d → ∀ W, s.heap[w]? = some W →
      ∀ i ∈ interests, i ∉ W.interests) :
    ∃ t, step s (Event.message d (ClientMessage.startChat interests true) now) = some t ∧
      t.waitingRoom = s.waitingRoom ++ [d] ∧ d ∈ t.waitingRoom ∧
      t.partnerOf d = none ∧
      (∀ x, x ≠ d → t.heap[x]? = s.heap[x]?) ∧
      (∀ x, x ≠ d → (x ∈ t.waitingRoom ↔ x ∈ s.waitingRoom)) ∧
      t.activeConnections = s.activeConnections ∧
      emitted s t = [] ∧ (∀ e ∈ emitted s t, e.isMatched = false) := by
  have hl : s.live d = true := by
    simp only [Server.live, hD, bne_iff_ne, ne_eq]
    exact hlive
  let s1 : Server :=
    { s with
      heap := s.heap.modify
        (fun x => { x with interests := interests, strictMatch := true }) d
      waitingRoom := s.waitingRoom ++ [d] }
  have hd1 : s1.heap[d]? = some { D with interests := interests, strictMatch := true } := by
    simp [s1, List.getElem?_modify, hD]
  have hother : ∀ x, x ≠ d → s1.heap[x]? = s.heap[x]? := by
    intro x hx
    exact getElem?_modify_ne _ _ _ _ hx
  have hnone : findMatch s1 d = none := by
    apply findMatch_eq_none_of_rejects s1 d _ hd1
    intro w hw
    by_cases hwd : w = d
    · subst hwd
      simp [accepts, hd1]
    · have hw2 : w ∈ s.waitingRoom := by
        simp only [s1, List.mem_append, List.mem_singleton] at hw
        rcases hw with hw | hw
        · exact hw
        · exact absurd hw hwd
      unfold accepts
      rw [hother w hwd]
      cases hW : s.heap[w]? with
      | none => rfl
      | some W =>
        have hc : (commonInterests { D with interests := interests, strictMatch := true } W).length
            = 0 := by
          rw [commonInterests_eq_nil_iff]
          rintro ⟨i, hi, hiW⟩
          exact hno w hw2 hwd W hW i hi hiW
        simp [hwd, hc]
  have hstep : step s (Event.message d (ClientMessage.startChat interests true) now)
      = some s1 := by
    simp only [step, hl, if_true, onMessage, onStartChat]
    show some (matchUsers s1 d) = some s1
    simp only [matchUsers, hnone]
  refine ⟨s1, hstep, rfl, by simp [s1], ?_, hother, ?_, rfl, ?_, ?_⟩
  · simp [Server.partnerOf, hd1, hp]
  · intro x hx
    simp [s1, hx]
  · exact emitted_same_log s _ _ _ _
  · intro e he
    rw [show emitted s s1 = [] from emitted_same_log s _ _ _ _] at he
    cases he

/-- Session `1` asks strictly for `chess` while session `0` waits with `music`. -/
theorem startChat_strict_without_common_interest_witness :
    ∃ t, step strictRoom (Event.message 1 (ClientMessage.startChat ["chess"] true) 0)
        = some t ∧
      t.waitingRoom = strictRoom.waitingRoom ++ [1] ∧ 1 ∈ t.waitingRoom ∧
      t.partnerOf 1 = none ∧
      (∀ x, x ≠ 1 → t.heap[x]? = strictRoom.heap[x]?) ∧
      (∀ x, x ≠ 1 → (x ∈ t.waitingRoom ↔ x ∈ strictRoom.waitingRoom)) ∧
      t.activeConnections = strictRoom.activeConnections ∧
      emitted strictRoom t = [] ∧ (∀ e ∈ emitted strictRoom t, e.isMatched = false) :=
  startChat_strict_without_common_interest strictRoom 1 UserSession.fresh ["chess"] 0 rfl
    (by decide) rfl
    (by
      intro w hw hne W hW i hi
      simp only [strictRoom, List.mem_singleton] at hw
      subst hw
      simp only [strictRoom, List.getElem?_cons_zero, Option.some.injEq] at hW
      subst hW
      simp only [List.mem_singleton] at hi
      subst hi
      decide)

/-- **C4 (failing input).** After `start-chat` twice from session `0` and once from
session `1`, `findMatch(1)` returns session `0` and `matchUsers(1)` pairs the two,
but session `0` is still in the waiting room: each `splice` removed one entry. -/
theorem matchUsers_leaves_duplicate :
    findMatch dupRoom 1 = some 0 ∧
    (matchUsers dupRoom 1).partnerOf 1 = some 0 ∧
    (matchUsers dupRoom 1).partnerOf 0 = some 1 ∧
    (matchUsers dupRoom 1).waitingRoom = [0] ∧
    0 ∈ (matchUsers dupRoom 1).waitingRoom ∧
    run Server.empty dupTrace = some (matchUsers dupRoom 1) := by
  decide

/-! ## `handleDisconnect` -/

/-- **C10.** When sessions `A` and `B` are distinct, `A.partner` is `B` and `B` is
registered, `handleDisconnect(A)` sends one `disconnect` event to `B` and nothing
else to anyone (followed only by `close` on `A`'s own socket when that is open),
sets `B.partner` to `null` and leaves every other field of `B`, in particular its
socket state, unchanged; it does not call `close` on `B`, and `B` stays registered. -/
theorem handleDisconnect_notifies_partner (s : Server) (a b : Nat) (A B : UserSession)
    (hA : s.heap[a]? = some A) (hB : s.heap[b]? = some B)
    (hb : b ∈ s.activeConnections) (hab : A.partner = some b) (hne : a ≠ b) :
    emitted s (handleDisconnect s a) =
      Effect.send b ServerEvent.disconnect ::
        (if A.readyState = ReadyState.OPEN then [Effect.close a] else []) ∧
    ((emitted s (handleDisconnect s a)).filter
      (fun e => decide (e = Effect.send b ServerEvent.disconnect))).length = 1 ∧
    (handleDisconnect s a).heap[b]? = some { B with partner := none } ∧
    Effect.close b ∉ emitted s (handleDisconnect s a) ∧
    b ∈ (handleDisconnect s a).activeConnections := by
  have hlog : (handleDisconnect s a).log = s.log ++
      (Effect.send b ServerEvent.disconnect ::
        (if A.readyState = ReadyState.OPEN then [Effect.close a] else [])) := by
    unfold handleDisconnect
    simp only [hA, hab, hb, if_true]
    split <;> simp
  have hem := emitted_of_log s _ _ hlog
  have hba : b ≠ a := fun h => hne h.symm
  refine ⟨hem, ?_, ?_, ?_, ?_⟩
  · rw [hem]
    split <;> simp [List.filter_cons]
  · unfold handleDisconnect
    simp only [hA, hab, hb, if_true]
    split
    · simp only
      rw [getElem?_modify_ne _ _ _ _ hba, getElem?_modify_eq, hB]
      rfl
    · simp only
      rw [getElem?_modify_eq, hB]
      rfl
  · rw [hem]
    split
    · simp only [List.mem_cons, reduceCtorEq, Effect.close.injEq, List.mem_nil_iff,
        or_false, false_or]
      exact hba
    · simp
  · unfold handleDisconnect
    simp only [hA, hab, hb, if_true]
    split <;> exact hb

/-- On the paired state, the disconnect of session `0` notifies session `1`. -/
theorem handleDisconnect_notifies_partner_witness :
    emitted pairedState (handleDisconnect pairedState 0) =
      Effect.send 1 ServerEvent.disconnect ::
        (if (UserSession.readyState { UserSession.fresh with partner := some 1 })
            = ReadyState.OPEN then [Effect.close 0] else []) ∧
    ((emitted pairedState (handleDisconnect pairedState 0)).filter
      (fun e => decide (e = Effect.send 1 ServerEvent.disconnect))).length = 1 ∧
    (handleDisconnect pairedState 0).heap[1]?
      = some { ({ UserSession.fresh with partner := some 0 } : UserSession) with
               partner := none } ∧
    Effect.close 1 ∉ emitted pairedState (handleDisconnect pairedState 0) ∧
    1 ∈ (handleDisconnect pairedState 0).activeConnections :=
  handleDisconnect_notifies_partner pairedState 0 1
    { UserSession.fresh with partner := some 1 } { UserSession.fresh with partner := some 0 }
    rfl rfl (by decide) rfl (by decide)

/-! ## The pairing invariant -/

set_option maxRecDepth 100000 in
/-- **C1 (counterexample).** The pairing invariant fails in reachable states: after
an explicit `disconnect` of a paired session (its own `partner` is never cleared),
after a `start-chat` of a paired session (it is back in the waiting room), and
after that session is matched again (its first partner still points to it). -/
theorem pairing_invariant_fails :
    (∃ t, run Server.empty disconnectTrace = some t ∧ ¬ PairingInvariant t) ∧
    (∃ t, run Server.empty restartTrace = some t ∧ ¬ PairingInvariant t) ∧
    (∃ t, run Server.empty rematchTrace = some t ∧ ¬ PairingInvariant t) := by
  refine ⟨⟨_, rfl, ?_⟩, ⟨_, rfl, ?_⟩, ⟨_, rfl, ?_⟩⟩
  · intro h
    have := (h 0 (by decide) 1 (by decide) (by decide)).1
    revert this
    decide
  · intro h
    have := (h 0 (by decide) 1 (by decide) (by decide)).2.1
    revert this
    decide
  · intro h
    have := (h 1 (by decide) 0 (by decide) (by decide)).1
    revert this
    decide

theorem partnerIn_modify_same (f : UserSession → UserSession) (hf : ∀ u, (f u).partner = u.partner)
    (heap : List UserSession) (i x : Nat) :
    partnerIn (heap.modify f i) x = partnerIn heap x := by
  unfold partnerIn
  rw [List.getElem?_modify]
  cases heap[x]? with
  | none => rfl
  | some X =>
    by_cases h : i = x
    · simp [h, hf]
    · simp [h]

theorem liveIn_modify_same (f : UserSession → UserSession)
    (hf : ∀ u, ((f u).readyState != ReadyState.CLOSED) = (u.readyState != ReadyState.CLOSED))
    (heap : List UserSession) (i x : Nat) :
    liveIn (heap.modify f i) x = liveIn heap x := by
  unfold liveIn
  rw [List.getElem?_modify]
  cases heap[x]? with
  | none => rfl
  | some X =>
    by_cases h : i = x
    · simp [h, hf]
    · simp [h]

theorem partnerIn_modify_ne (f : UserSession → UserSession) (heap : List UserSession)
    (i x : Nat) (h : x ≠ i) : partnerIn (heap.modify f i) x = partnerIn heap x := by
  unfold partnerIn
  rw [getElem?_modify_ne f heap i x h]

theorem partnerIn_modify_eq (f : UserSession → UserSession) (heap : List UserSession)
    (i : Nat) (u : UserSession) (h : heap[i]? = some u) :
    partnerIn (heap.modify f i) i = (f u).partner := by
  unfold partnerIn
  rw [getElem?_modify_eq, h]
  rfl

theorem liveIn_modify_ne (f : UserSession → UserSession) (heap : List UserSession)
    (i x : Nat) (h : x ≠ i) : liveIn (heap.modify f i) x = liveIn heap x := by
  unfold liveIn
  rw [getElem?_modify_ne f heap i x h]

theorem Inv.of_same {s t : Server} (hs : Inv s)
    (hw : t.waitingRoom = s.waitingRoom) (ha : t.activeConnections = s.activeConnections)
    (hp : ∀ x, partnerIn t.heap x = partnerIn s.heap x)
    (hl : ∀ x, liveIn t.heap x = liveIn s.heap x)
    (hn : t.heap.length = s.heap.length) : Inv t := by
  constructor
  · intro a ha1 b hb1 hab
    rw [ha] at ha1 hb1
    rw [hp] at hab ⊢
    exact hs.symm a ha1 b hb1 hab
  · intro w hw1
    rw [hw] at hw1
    rw [hp]
    exact hs.waiting w hw1
  · rw [hw]
    exact hs.nodup
  · intro x p hxp
    rw [hp] at hxp
    rw [hn]
    exact hs.bound x p hxp
  · intro x hx
    rw [hl] at hx
    rw [ha]
    exact hs.registered x hx

theorem Inv.empty : Inv Server.empty := by
  constructor
  · intro a ha
    cases ha
  · intro w hw
    cases hw
  · exact List.nodup_nil
  · intro x p h
    simp [partnerIn, Server.empty] at h
  · intro x h
    simp [liveIn, Server.empty] at h

theorem wsClose_live (r : ReadyState) :
    (wsClose r != ReadyState.CLOSED) = (r != ReadyState.CLOSED) := by
  cases r <;> rfl

theorem handleMessage_frame (s : Server) (sender : Nat) (text : List Char) (now : Nat) :
    (handleMessage s sender text now).waitingRoom = s.waitingRoom ∧
    (handleMessage s sender text now).activeConnections = s.activeConnections ∧
    (∀ x, partnerIn (handleMessage s sender text now).heap x = partnerIn s.heap x) ∧
    (∀ x, liveIn (handleMessage s sender text now).heap x = liveIn s.heap x) ∧
    (handleMessage s sender text now).heap.length = s.heap.length := by
  have hA : ∀ x, partnerIn (s.heap.modify
      (fun x => { x with messageCount := x.messageCount + 1,
                         readyState := wsClose x.readyState }) sender) x = partnerIn s.heap x :=
    fun x => by
      apply partnerIn_modify_same
      intro u
      rfl
  have hB : ∀ x, liveIn (s.heap.modify
      (fun x => { x with messageCount := x.messageCount + 1,
                         readyState := wsClose x.readyState }) sender) x = liveIn s.heap x :=
    fun x => by
      apply liveIn_modify_same
      intro u
      exact wsClose_live u.readyState
  have hC : ∀ x, partnerIn (s.heap.modify
      (fun x => { x with messageCount := x.messageCount + 1,
                         lastMessageTime := now }) sender) x = partnerIn s.heap x :=
    fun x => by
      apply partnerIn_modify_same
      intro u
      rfl
  have hD : ∀ x, liveIn (s.heap.modify
      (fun x => { x with messageCount := x.messageCount + 1,
                         lastMessageTime := now }) sender) x = liveIn s.heap x :=
    fun x => by
      apply liveIn_modify_same
      intro u
      rfl
  unfold handleMessage
  split
  · exact ⟨rfl, rfl, fun _ => rfl, fun _ => rfl, rfl⟩
  · split
    · exact ⟨rfl, rfl, fun _ => rfl, fun _ => rfl, rfl⟩
    · split
      · exact ⟨rfl, rfl, hA, hB, List.length_modify _ _ _⟩
      · split
        · exact ⟨rfl, rfl, hC, hD, List.length_modify _ _ _⟩
        · split
          · exact ⟨rfl, rfl, hC, hD, List.length_modify _ _ _⟩
          · split
            · exact ⟨rfl, rfl, hC, hD, List.length_modify _ _ _⟩
            · exact ⟨rfl, rfl, hC, hD, List.length_modify _ _ _⟩

theorem Inv.handleMessage {s : Server} (hs : Inv s) (sender : Nat) (text : List Char)
    (now : Nat) : Inv (handleMessage s sender text now) := by
  obtain ⟨h1, h2, h3, h4, h5⟩ := handleMessage_frame s sender text now
  exact hs.of_same h1 h2 h3 h4 h5

theorem Inv.onTyping {s t : Server} (hs : Inv s) (user : Nat) (isTyping : Bool)
    (h : onTyping s user isTyping = some t) : Inv t := by
  unfold Qmegle.onTyping at h
  split at h
  · cases h
    exact hs
  · split at h
    · cases h
      exact hs.of_same rfl rfl (fun _ => rfl) (fun _ => rfl) rfl
    · cases h

theorem Inv.onConnection {s : Server} (hs : Inv s) : Inv (onConnection s) := by
  have hp : ∀ x, partnerIn (s.heap ++ [UserSession.fresh]) x = partnerIn s.heap x := by
    intro x
    unfold partnerIn
    rcases Nat.lt_trichotomy x s.heap.length with h | h | h
    · rw [List.getElem?_append_left h]
    · subst h
      simp [UserSession.fresh]
    · rw [List.getElem?_eq_none (by simp; omega), List.getElem?_eq_none (by omega)]
  have hl : ∀ x, x ≠ s.heap.length →
      liveIn (s.heap ++ [UserSession.fresh]) x = liveIn s.heap x := by
    intro x hx
    unfold liveIn
    rcases Nat.lt_trichotomy x s.heap.length with h | h | h
    · rw [List.getElem?_append_left h]
    · exact absurd h hx
    · rw [List.getElem?_eq_none (by simp; omega), List.getElem?_eq_none (by omega)]
  constructor
  · intro a ha b hb hab
    simp only [Qmegle.onConnection, List.mem_append, List.mem_singleton] at ha hb hab ⊢
    rw [hp] at hab ⊢
    have hb2 := hs.bound a b hab
    have ha2 : a ∈ s.activeConnections := by
      rcases ha with ha | ha
      · exact ha
      · subst ha
        simp [partnerIn] at hab
    have hb3 : b ∈ s.activeConnections := by
      rcases hb with hb | hb
      · exact hb
      · omega
    exact hs.symm a ha2 b hb3 hab
  · intro w hw
    simp only [Qmegle.onConnection] at hw ⊢
    rw [hp]
    exact hs.waiting w hw
  · exact hs.nodup
  · intro x p hxp
    simp only [Qmegle.onConnection] at hxp ⊢
    rw [hp] at hxp
    have := hs.bound x p hxp
    simp only [List.length_append, List.length_singleton]
    omega
  · intro x hx
    simp only [Qmegle.onConnection, List.mem_append, List.mem_singleton] at hx ⊢
    by_cases hxl : x = s.heap.length
    · right
      exact hxl
    · left
      rw [hl x hxl] at hx
      exact hs.registered x hx

theorem liveIn_modify_at (f : UserSession → UserSession) (heap : List UserSession) (i : Nat)
    (hf : ∀ u, heap[i]? = some u →
      ((f u).readyState != ReadyState.CLOSED) = (u.readyState != ReadyState.CLOSED))
    (x : Nat) : liveIn (heap.modify f i) x = liveIn heap x := by
  by_cases h : x = i
  · subst h
    unfold liveIn
    rw [getElem?_modify_eq]
    cases hx : heap[x]? with
    | none => rfl
    | some X => exact hf X hx
  · exact liveIn_modify_ne f heap i x h

theorem Inv.handleDisconnect_unpaired {s : Server} (hs : Inv s) (user : Nat)
    (hg : s.hasRegisteredPartner user = false) : Inv (handleDisconnect s user) := by
  unfold handleDisconnect
  cases hu : s.heap[user]? with
  | none => exact hs
  | some u =>
    have hs1 : (match u.partner with
        | none => s
        | some p =>
          if p ∈ s.activeConnections then
            ({ s with
              log := s.log ++ [Effect.send p ServerEvent.disconnect]
              heap := s.heap.modify (fun x => { x with partner := none }) p } : Server)
          else s) = s := by
      cases hp : u.partner with
      | none => rfl
      | some p =>
        have : p ∉ s.activeConnections := by
          simpa [Server.hasRegisteredPartner, Server.partnerOf, hu, hp] using hg
        simp [this]
    simp only [hs1]
    split
    · rename_i hopen
      refine hs.of_same rfl rfl ?_ ?_ (List.length_modify _ _ _)
      · intro x
        apply partnerIn_modify_same
        intro _
        rfl
      · intro x
        apply liveIn_modify_at
        intro v hv
        rw [hu] at hv
        cases hv
        rw [hopen]
        rfl
    · exact hs

theorem onClose_frame (s : Server) (user : Nat) (U : UserSession)
    (hU : s.heap[user]? = some U) :
    (onClose s user).waitingRoom = s.waitingRoom ∧
    (onClose s user).activeConnections = s.activeConnections.filter (fun k => k != user) ∧
    (∀ x, partnerIn (onClose s user).heap x = partnerIn s.heap x ∨
      (partnerIn (onClose s user).heap x = none ∧ U.partner = some x ∧
        x ∈ s.activeConnections)) ∧
    (∀ x, x ≠ user → liveIn (onClose s user).heap x = liveIn s.heap x) ∧
    liveIn (onClose s user).heap user = false ∧
    (onClose s user).heap.length = s.heap.length := by
  have h0 : (s.heap.modify (fun x => { x with readyState := ReadyState.CLOSED }) user)[user]?
      = some { U with readyState := ReadyState.CLOSED } := by
    rw [getElem?_modify_eq, hU]
    rfl
  have hp0 : ∀ x, partnerIn
      (s.heap.modify (fun x => { x with readyState := ReadyState.CLOSED }) user) x
        = partnerIn s.heap x := by
    intro x
    apply partnerIn_modify_same
    intro _
    rfl
  have hl0 : ∀ x, x ≠ user → liveIn
      (s.heap.modify (fun x => { x with readyState := ReadyState.CLOSED }) user) x
        = liveIn s.heap x := fun x hx => liveIn_modify_ne _ _ _ _ hx
  have hl1 : liveIn
      (s.heap.modify (fun x => { x with readyState := ReadyState.CLOSED }) user) user
        = false := by
    unfold liveIn
    rw [h0]
    rfl
  unfold onClose handleDisconnect
  simp only [h0]
  have hne : ¬ (ReadyState.CLOSED = ReadyState.OPEN) := by decide
  simp only [hne, if_false]
  cases hp : U.partner with
  | none =>
    simp only
    exact ⟨trivial, trivial, fun x => Or.inl (hp0 x), hl0, hl1, List.length_modify _ _ _⟩
  | some p =>
    simp only
    by_cases hact : p ∈ s.activeConnections
    · simp only [hact, if_true]
      refine ⟨trivial, trivial, ?_, ?_, ?_, ?_⟩
      · intro x
        by_cases hx : x = p
        · subst hx
          right
          refine ⟨?_, rfl, hact⟩
          unfold partnerIn
          rw [getElem?_modify_eq]
          cases (s.heap.modify (fun x => { x with readyState := ReadyState.CLOSED }) user)[x]?
            <;> rfl
        · left
          rw [partnerIn_modify_ne _ _ _ _ hx]
          exact hp0 x
      · intro x hx
        rw [liveIn_modify_at]
        · exact hl0 x hx
        · intro _ _
          rfl
      · rw [liveIn_modify_at]
        · exact hl1
        · intro _ _
          rfl
      · rw [List.length_modify, List.length_modify]
    · simp only [hact, if_false]
      exact ⟨trivial, trivial, fun x => Or.inl (hp0 x), hl0, hl1, List.length_modify _ _ _⟩

theorem Inv.onClose {s : Server} (hs : Inv s) (user : Nat) (hlive : s.live user = true) :
    Inv (onClose s user) := by
  have hlive2 : liveIn s.heap user = true := hlive
  cases hU : s.heap[user]? with
  | none => simp [liveIn, hU] at hlive2
  | some U =>
    obtain ⟨hw, ha, hp, hl, hlu, hn⟩ := onClose_frame s user U hU
    have huact : user ∈ s.activeConnections := hs.registered user hlive2
    have hUp : partnerIn s.heap user = U.partner := by simp [partnerIn, hU]
    constructor
    · intro a ha1 b hb1 hab
      rw [ha, List.mem_filter] at ha1 hb1
      have hau : a ≠ user := by simpa using ha1.2
      rcases hp a with ha2 | ⟨ha2, _, _⟩
      · rw [ha2] at hab
        have hba := hs.symm a ha1.1 b hb1.1 hab
        rcases hp b with hb2 | ⟨_, hb3, hb4⟩
        · rw [hb2]
          exact hba
        · have := hs.symm user huact b hb4 (by rw [hUp]; exact hb3)
          rw [this] at hba
          cases hba
          exact absurd rfl hau
      · rw [ha2] at hab
        cases hab
    · intro w hw1
      rw [hw] at hw1
      rcases hp w with h | ⟨h, _, _⟩
      · rw [h]
        exact hs.waiting w hw1
      · exact h
    · rw [hw]
      exact hs.nodup
    · intro x p hxp
      rw [hn]
      rcases hp x with h | ⟨h, _, _⟩
      · rw [h] at hxp
        exact hs.bound x p hxp
      · rw [h] at hxp
        cases hxp
    · intro x hx
      have hxu : x ≠ user := by
        intro h
        subst h
        rw [hlu] at hx
        cases hx
      rw [hl x hxu] at hx
      rw [ha, List.mem_filter]
      exact ⟨hs.registered x hx, by simpa using hxu⟩

theorem splice1_jsIndexOf_of_mem (l : List Nat) (x : Nat) (h : x ∈ l) :
    splice1 l (jsIndexOf l x) = l.erase x := by
  have hlt : List.indexOf x l < l.length := List.indexOf_lt_length.mpr h
  unfold splice1 jsIndexOf
  simp only [h, if_true]
  have h1 : ¬ ((List.indexOf x l : Int) < 0) := by omega
  rw [if_neg h1]
  have h2 : min (List.indexOf x l : Int) (l.length : Int) = (List.indexOf x l : Int) := by
    omega
  rw [h2, Int.toNat_ofNat, List.eraseIdx_indexOf_eq_erase]

theorem findMatch_some_spec (s : Server) (d p : Nat) (h : findMatch s d = some p) :
    p ∈ s.waitingRoom ∧ p ≠ d ∧ (∃ P, s.heap[p]? = some P) ∧ ∃ D, s.heap[d]? = some D := by
  unfold findMatch at h
  cases hd : s.heap[d]? with
  | none => simp [hd] at h
  | some D =>
    simp only [hd, findMatchFrom_eq_find] at h
    have hmem := List.mem_of_find?_eq_some h
    have hacc := List.find?_some h
    unfold accepts at hacc
    cases hp : s.heap[p]? with
    | none => simp [hp] at hacc
    | some P =>
      simp only [hp, Bool.and_eq_true, Bool.not_eq_true', decide_eq_false_iff_not] at hacc
      exact ⟨hmem, hacc.1, ⟨P, rfl⟩, ⟨D, rfl⟩⟩

theorem Inv.onStartChat {s : Server} (hs : Inv s) (user : Nat) (interests : List String)
    (strictMatch : Bool) (hpn : s.partnerOf user = none) (hnw : user ∉ s.waitingRoom) :
    Inv (onStartChat s user interests strictMatch) := by
  have hpn2 : partnerIn s.heap user = none := hpn
  let s1 : Server :=
    { s with
      heap := s.heap.modify
        (fun x => { x with interests := interests, strictMatch := strictMatch }) user
      waitingRoom := s.waitingRoom ++ [user] }
  have hp1 : ∀ x, partnerIn s1.heap x = partnerIn s.heap x := by
    intro x
    apply partnerIn_modify_same
    intro _
    rfl
  have hl1 : ∀ x, liveIn s1.heap x = liveIn s.heap x := by
    intro x
    apply liveIn_modify_same
    intro _
    rfl
  have hn1 : s1.heap.length = s.heap.length := List.length_modify _ _ _
  have hinv1 : Inv s1 := by
    constructor
    · intro a ha b hb hab
      rw [hp1] at hab ⊢
      exact hs.symm a ha b hb hab
    · intro w hw
      rw [hp1]
      simp only [s1, List.mem_append, List.mem_singleton] at hw
      rcases hw with hw | hw
      · exact hs.waiting w hw
      · rw [hw]
        exact hpn2
    · show (s.waitingRoom ++ [user]).Nodup
      rw [List.nodup_append]
      refine ⟨hs.nodup, List.nodup_singleton _, ?_⟩
      intro a ha hb
      simp only [List.mem_singleton] at hb
      subst hb
      exact hnw ha
    · intro x p hxp
      rw [hp1] at hxp
      rw [hn1]
      exact hs.bound x p hxp
    · intro x hx
      rw [hl1] at hx
      exact hs.registered x hx
  show Inv (matchUsers s1 user)
  unfold matchUsers
  cases hf : findMatch s1 user with
  | none => exact hinv1
  | some p =>
    obtain ⟨hpm, hpu, ⟨P, hP⟩, ⟨D, hD⟩⟩ := findMatch_some_spec s1 user p hf
    have hpw : p ∈ s.waitingRoom := by
      simp only [s1, List.mem_append, List.mem_singleton] at hpm
      rcases hpm with h | h
      · exact h
      · exact absurd h hpu
    have hw1 : splice1 s1.waitingRoom (jsIndexOf s1.waitingRoom user) = s.waitingRoom := by
      rw [splice1_jsIndexOf_of_mem _ _ (by simp [s1])]
      show (s.waitingRoom ++ [user]).erase user = s.waitingRoom
      rw [List.erase_append_right _ hnw]
      simp
    simp only [hw1]
    rw [splice1_jsIndexOf_of_mem _ _ hpw]
    have hup : user ≠ p := fun h => hpu h.symm
    have hD2 : (s1.heap.modify (fun u => { u with partner := some p }) user)[p]? = some P := by
      rw [getElem?_modify_ne _ _ _ _ hpu]
      exact hP
    have hpp : partnerIn ((s1.heap.modify (fun u => { u with partner := some p }) user).modify
        (fun q => { q with partner := some user }) p) p = some user := by
      rw [partnerIn_modify_eq _ _ _ _ hD2]
    have hpuu : partnerIn ((s1.heap.modify (fun u => { u with partner := some p }) user).modify
        (fun q => { q with partner := some user }) p) user = some p := by
      rw [partnerIn_modify_ne _ _ _ _ hup, partnerIn_modify_eq _ _ _ _ hD]
    have hpo : ∀ x, x ≠ p → x ≠ user →
        partnerIn ((s1.heap.modify (fun u => { u with partner := some p }) user).modify
          (fun q => { q with partner := some user }) p) x = partnerIn s.heap x := by
      intro x h1 h2
      rw [partnerIn_modify_ne _ _ _ _ h1, partnerIn_modify_ne _ _ _ _ h2]
      exact hp1 x
    have hlo : ∀ x, liveIn ((s1.heap.modify (fun u => { u with partner := some p }) user).modify
          (fun q => { q with partner := some user }) p) x = liveIn s.heap x := by
      intro x
      rw [liveIn_modify_same, liveIn_modify_same]
      · exact hl1 x
      · intro _
        rfl
      · intro _
        rfl
    have hlen : ((s1.heap.modify (fun u => { u with partner := some p }) user).modify
          (fun q => { q with partner := some user }) p).length = s.heap.length := by
      rw [List.length_modify, List.length_modify]
      exact hn1
    have hplt : p < s.heap.length := by
      rw [← hn1]
      by_contra hge
      rw [List.getElem?_eq_none (by omega)] at hP
      cases hP
    have hult : user < s.heap.length := by
      rw [← hn1]
      by_contra hge
      rw [List.getElem?_eq_none (by omega)] at hD
      cases hD
    have hpnone : partnerIn s.heap p = none := hs.waiting p hpw
    constructor
    · intro a ha b hb hab
      simp only at ha hb hab ⊢
      by_cases hap : a = p
      · subst hap
        rw [hpp] at hab
        cases hab
        exact hpuu
      · by_cases hau : a = user
        · subst hau
          rw [hpuu] at hab
          cases hab
          exact hpp
        · rw [hpo a hap hau] at hab
          have hba := hs.symm a ha b hb hab
          by_cases hbp : b = p
          · subst hbp
            rw [hpnone] at hba
            cases hba
          · by_cases hbu : b = user
            · subst hbu
              rw [hpn2] at hba
              cases hba
            · rw [hpo b hbp hbu]
              exact hba
    · intro w hw
      simp only at hw ⊢
      have hw2 := (List.Nodup.mem_erase_iff hs.nodup).mp hw
      have hwu : w ≠ user := fun h => hnw (h ▸ hw2.2)
      rw [hpo w hw2.1 hwu]
      exact hs.waiting w hw2.2
    · exact hs.nodup.erase p
    · intro x q hxq
      simp only at hxq ⊢
      rw [hlen]
      by_cases hxp : x = p
      · subst hxp
        rw [hpp] at hxq
        cases hxq
        exact hult
      · by_cases hxu : x = user
        · subst hxu
          rw [hpuu] at hxq
          cases hxq
          exact hplt
        · rw [hpo x hxp hxu] at hxq
          exact hs.bound x q hxq
    · intro x hx
      simp only at hx ⊢
      rw [hlo] at hx
      exact hs.registered x hx

theorem Inv.step {s t : Server} (hs : Inv s) (e : Event) (ho : orderlyEvent s e = true)
    (h : step s e = some t) : Inv t := by
  cases e with
  | connection =>
    simp only [Qmegle.step, Option.some.injEq] at h
    subst h
    exact hs.onConnection
  | close ws =>
    simp only [Qmegle.step] at h
    by_cases hl : s.live ws = true
    · simp only [hl, if_true, Option.some.injEq] at h
      subst h
      exact hs.onClose ws hl
    · rw [if_neg hl] at h
      cases h
      exact hs
  | message ws m now =>
    simp only [Qmegle.step] at h
    by_cases hl : s.live ws = true
    · simp only [hl, if_true] at h
      cases m with
      | startChat interests strictMatch =>
        simp only [onMessage, Option.some.injEq] at h
        subst h
        simp only [orderlyEvent, hl, Bool.not_true, Bool.false_or, Bool.and_eq_true,
          decide_eq_true_eq] at ho
        exact hs.onStartChat ws interests strictMatch ho.1 ho.2
      | message text =>
        simp only [onMessage, Option.some.injEq] at h
        subst h
        exact hs.handleMessage ws text now
      | typing isTyping =>
        simp only [onMessage] at h
        exact hs.onTyping ws isTyping h
      | disconnect =>
        simp only [onMessage, Option.some.injEq] at h
        subst h
        simp only [orderlyEvent, hl, Bool.not_true, Bool.false_or, Bool.not_eq_true'] at ho
        exact hs.handleDisconnect_unpaired ws ho
      | other =>
        simp only [onMessage, Option.some.injEq] at h
        subst h
        exact hs
    · rw [if_neg hl] at h
      cases h
      exact hs

theorem Inv.run (evs : List Event) :
    ∀ {s t : Server}, Inv s → orderly s evs = true → run s evs = some t → Inv t := by
  induction evs with
  | nil =>
    intro s t hs _ h
    simp only [Qmegle.run, Option.some.injEq] at h
    subst h
    exact hs
  | cons e es ih =>
    intro s t hs ho h
    simp only [Qmegle.run] at h
    simp only [orderly, Bool.and_eq_true] at ho
    cases hst : Qmegle.step s e with
    | none => simp [hst] at h
    | some r =>
      rw [hst] at h
      simp only [Option.some_bind] at h
      have hor := ho.2
      rw [hst] at hor
      exact ih (hs.step e ho.1 hst) hor h

theorem Inv.pairing {s : Server} (hs : Inv s) : PairingInvariant s := by
  intro a ha b hb hab
  have hab2 : partnerIn s.heap a = some b := hab
  have hba := hs.symm a ha b hb hab2
  refine ⟨hba, ?_, ?_⟩
  · intro hw
    rw [hs.waiting a hw] at hab2
    cases hab2
  · intro hw
    rw [hs.waiting b hw] at hba
    cases hba

/-- **C1 (as amended).** In every state reached from the empty server by a sequence
of connection, start-chat, message, typing, disconnect and close events in which
`start-chat` comes only from sessions that are unpaired and not in the waiting room
and an explicit `disconnect` only from sessions without a registered partner, for
all registered sessions `A` and `B`: if `A.partner` is `B` then `B.partner` is `A`
and neither is in the waiting room. -/
theorem pairing_invariant_orderly (evs : List Event) (t : Server)
    (ho : orderly Server.empty evs = true) (hr : run Server.empty evs = some t) :
    PairingInvariant t :=
  (Inv.run evs Inv.empty ho hr).pairing

set_option maxRecDepth 100000 in
/-- The orderly run of two sessions that pair, chat and close keeps the invariant. -/
theorem pairing_invariant_orderly_witness :
    orderly Server.empty orderlyTrace = true ∧
    (∃ t, run Server.empty orderlyTrace = some t ∧ PairingInvariant t) :=
  ⟨by decide, _, rfl, pairing_invariant_orderly orderlyTrace _ (by decide) rfl⟩

/-! ## The order of the relay policy -/

/-- **C16.** A message dropped by the rate limit leaves the whole state, so
`messageCount` and `lastMessageTime`, unchanged; a message that passes the rate
and flood checks and is rejected for its content (more than 500 code units, or a
banned word) still increments `messageCount` by exactly 1 and sets
`lastMessageTime` to `now`, changes nothing else of the sender and sends nothing. -/
theorem handleMessage_policy_order (s : Server) (sender : Nat) (u : UserSession)
    (text : List Char) (now : Nat) (hu : s.heap[sender]? = some u) :
    ((now : Int) - (u.lastMessageTime : Int) < 1000 →
      handleMessage s sender text now = s) ∧
    (1000 ≤ (now : Int) - (u.lastMessageTime : Int) → u.messageCount ≤ 30 →
      (500 < jsLength text ∨ containsBannedWords text = true) →
      (handleMessage s sender text now).heap[sender]? =
        some { u with messageCount := u.messageCount + 1, lastMessageTime := now } ∧
      emitted s (handleMessage s sender text now) = []) := by
  constructor
  · intro h
    unfold handleMessage
    simp only [hu]
    rw [if_pos h]
  · intro h1 h2 h3
    have hc : (decide (jsLength text > 500) || containsBannedWords text) = true := by
      rcases h3 with h3 | h3
      · simp [h3]
      · simp [h3]
    unfold handleMessage
    simp only [hu]
    rw [if_neg (by omega), if_neg (by omega)]
    simp only [hc, if_true]
    refine ⟨?_, emitted_same_log s _ _ _ _⟩
    rw [getElem?_modify_eq, hu]
    rfl

/-- On the paired state, a message of 501 characters at time 1000 is not forwarded
but uses up the window and one unit of the flood budget. -/
theorem handleMessage_policy_order_witness :
    (handleMessage pairedState 0 text501 1000).heap[0]? =
      some { ({ UserSession.fresh with partner := some 1 } : UserSession) with
             messageCount := 0 + 1, lastMessageTime := 1000 } ∧
    emitted pairedState (handleMessage pairedState 0 text501 1000) = [] :=
  (handleMessage_policy_order pairedState 0 { UserSession.fresh with partner := some 1 }
    text501 1000 rfl).2 (by decide) (by decide) (Or.inl (by
      rw [show jsLength text501 = 501 from jsLength_replicate_a 501]
      decide))

/-! ## Symmetry of the compatibility test -/

theorem commonInterests_length_symm (x y : UserSession) :
    ((commonInterests x y).length == 0) = ((commonInterests y x).length == 0) := by
  have h1 := commonInterests_eq_nil_iff x y
  have h2 := commonInterests_eq_nil_iff y x
  have h3 : (∃ i ∈ x.interests, i ∈ y.interests) ↔ (∃ i ∈ y.interests, i ∈ x.interests) :=
    ⟨fun ⟨i, a, b⟩ => ⟨i, b, a⟩, fun ⟨i, a, b⟩ => ⟨i, b, a⟩⟩
  by_cases h : (commonInterests x y).length = 0
  · have h4 : (commonInterests y x).length = 0 := h2.mpr (fun hh => h1.mp h (h3.mpr hh))
    simp [h, h4]
  · have h4 : ¬ (commonInterests y x).length = 0 := fun hh => h (h1.mpr (fun e => h2.mp hh (h3.mp e)))
    simp [h, h4]

theorem accepts_symm (heap : List UserSession) (x y : Nat) (X Y : UserSession)
    (hx : heap[x]? = some X) (hy : heap[y]? = some Y) :
    accepts heap y Y x = accepts heap x X y := by
  unfold accepts
  rw [hx, hy]
  simp only
  rw [commonInterests_length_symm Y X, Bool.or_comm Y.strictMatch X.strictMatch]
  by_cases h : x = y
  · simp [h]
  · have h2 : ¬ y = x := fun e => h e.symm
    simp [h, h2]

/-- **C17.** The test `findMatch` applies to a candidate is symmetric: for sessions
`X` and `Y`, a scan for `Y` over a waiting room holding just `X` returns `X` exactly
when a scan for `X` over a waiting room holding just `Y` returns `Y`. -/
theorem findMatch_test_symmetric (heap : List UserSession) (x y : Nat) (X Y : UserSession)
    (hx : heap[x]? = some X) (hy : heap[y]? = some Y) :
    findMatchFrom heap y Y [x] = some x ↔ findMatchFrom heap x X [y] = some y := by
  rw [findMatchFrom_eq_find, findMatchFrom_eq_find]
  have h := accepts_symm heap x y X Y hx hy
  simp only [List.find?_cons, List.find?_nil]
  rw [h]
  cases accepts heap x X y <;> simp

/-- A strict session with `music` and a session with `chess` and `music` accept
each other. -/
theorem findMatch_test_symmetric_witness :
    findMatchFrom interestRoom.heap 1 { UserSession.fresh with interests := ["chess", "music"] }
        [0] = some 0 ↔
      findMatchFrom interestRoom.heap 0
        { UserSession.fresh with interests := ["music"], strictMatch := true } [1] = some 1 :=
  findMatch_test_symmetric interestRoom.heap 0 1
    { UserSession.fresh with interests := ["music"], strictMatch := true }
    { UserSession.fresh with interests := ["chess", "music"] } rfl rfl

/-! ## More on `handleDisconnect`, `close` and `typing` -/

/-- **C11 (failing input).** On the paired state the second run of
`handleDisconnect(0)` sends a second `disconnect` event to session `1`; and in the
run where session `0` sends `disconnect` and its socket then closes, session `1` is
sent two `disconnect` events. -/
theorem handleDisconnect_second_run_notifies_again :
    emitted (handleDisconnect pairedState 0)
        (handleDisconnect (handleDisconnect pairedState 0) 0)
      = [Effect.send 1 ServerEvent.disconnect] ∧
    (∃ t, run Server.empty disconnectCloseTrace = some t ∧
      (t.log.filter (fun e => decide (e = Effect.send 1 ServerEvent.disconnect))).length = 2) := by
  refine ⟨by decide, _, rfl, by decide⟩

/-- **C13 (failing input).** Session `0` asks for a match and closes while
waiting: it leaves `activeConnections` but stays in `waitingRoom`, `findMatch` for
the next session returns it, and the next session is paired with it. -/
theorem closed_session_stays_in_waitingRoom :
    (∃ t, run Server.empty (ghostTrace.take 3) = some t ∧
      0 ∉ t.activeConnections ∧ 0 ∈ t.waitingRoom ∧
      findMatch (onConnection t) 1 = some 0) ∧
    run Server.empty ghostTrace = some ghostState ∧
    ghostState.partnerOf 1 = some 0 ∧ 0 ∉ ghostState.activeConnections := by
  refine ⟨⟨_, rfl, by decide, by decide, by decide⟩, by decide, by decide, by decide⟩

/-- **C14 (failing input).** In the state where the partner of session `1` is no
longer registered, a `typing` event from session `1` throws instead of doing
nothing, and the run that leads there followed by the event has no result. -/
theorem typing_with_unregistered_partner_throws :
    ghostState.partnerOf 1 = some 0 ∧ 0 ∉ ghostState.activeConnections ∧
    onTyping ghostState 1 true = none ∧
    run Server.empty (ghostTrace ++ [Event.message 1 (ClientMessage.typing true) 0]) = none := by
  decide

theorem handleDisconnect_heap (s : Server) (a x : Nat) (X : UserSession)
    (hx : s.heap[x]? = some X) :
    ∃ Y, (handleDisconnect s a).heap[x]? = some Y ∧
      Y.interests = X.interests ∧ Y.strictMatch = X.strictMatch ∧
      Y.lastMessageTime = X.lastMessageTime ∧ Y.messageCount = X.messageCount ∧
      (Y.partner = X.partner ∨ (Y.partner = none ∧ s.partnerOf a = some x)) ∧
      (x ≠ a → Y.readyState = X.readyState) := by
  have key : ∀ (f g : UserSession → UserSession) (i j : Nat),
      ((s.heap.modify f i).modify g j)[x]? =
        some ((if j = x then g else id) ((if i = x then f else id) X)) := by
    intro f g i j
    rw [List.getElem?_modify, List.getElem?_modify, hx]
    by_cases h1 : i = x <;> by_cases h2 : j = x <;> simp [h1, h2]
  have key1 : ∀ (f : UserSession → UserSession) (i : Nat),
      (s.heap.modify f i)[x]? = some ((if i = x then f else id) X) := by
    intro f i
    rw [List.getElem?_modify, hx]
    by_cases h1 : i = x <;> simp [h1]
  unfold handleDisconnect
  cases ha : s.heap[a]? with
  | none => exact ⟨X, hx, rfl, rfl, rfl, rfl, Or.inl rfl, fun _ => rfl⟩
  | some A =>
    have hpa : s.partnerOf a = A.partner := by simp [Server.partnerOf, ha]
    simp only
    cases hp : A.partner with
    | none =>
      simp only
      split
      · simp only
        rw [key1]
        by_cases h1 : a = x
        · simp only [h1, if_true]
          exact ⟨_, rfl, rfl, rfl, rfl, rfl, Or.inl rfl, fun h => absurd rfl h⟩
        · simp only [h1, if_false, id]
          exact ⟨_, rfl, rfl, rfl, rfl, rfl, Or.inl rfl, fun _ => rfl⟩
      · exact ⟨X, hx, rfl, rfl, rfl, rfl, Or.inl rfl, fun _ => rfl⟩
    | some p =>
      simp only
      by_cases hact : p ∈ s.activeConnections
      · simp only [hact, if_true]
        split
        · simp only
          rw [key]
          by_cases h1 : p = x <;> by_cases h2 : a = x
          · subst h1
            subst h2
            simp only [if_true]
            exact ⟨_, rfl, rfl, rfl, rfl, rfl, Or.inr ⟨rfl, by rw [hpa, hp]⟩,
              fun h => absurd rfl h⟩
          · simp only [h1, h2, if_true, if_false, id]
            exact ⟨_, rfl, rfl, rfl, rfl, rfl, Or.inr ⟨rfl, by rw [hpa, hp, h1]⟩,
              fun _ => rfl⟩
          · simp only [h1, h2, if_true, if_false, id]
            exact ⟨_, rfl, rfl, rfl, rfl, rfl, Or.inl rfl, fun h => absurd rfl h⟩
          · simp only [h1, h2, if_false, id]
            exact ⟨_, rfl, rfl, rfl, rfl, rfl, Or.inl rfl, fun _ => rfl⟩
        · simp only
          rw [key1]
          by_cases h1 : p = x
          · simp only [h1, if_true]
            exact ⟨_, rfl, rfl, rfl, rfl, rfl, Or.inr ⟨rfl, by rw [hpa, hp, h1]⟩,
              fun _ => rfl⟩
          · simp only [h1, if_false, id]
            exact ⟨_, rfl, rfl, rfl, rfl, rfl, Or.inl rfl, fun _ => rfl⟩
      · simp only [hact, if_false]
        split
        · simp only
          rw [key1]
          by_cases h1 : a = x
          · simp only [h1, if_true]
            exact ⟨_, rfl, rfl, rfl, rfl, rfl, Or.inl rfl, fun h => absurd rfl h⟩
          · simp only [h1, if_false, id]
            exact ⟨_, rfl, rfl, rfl, rfl, rfl, Or.inl rfl, fun _ => rfl⟩
        · exact ⟨X, hx, rfl, rfl, rfl, rfl, Or.inl rfl, fun _ => rfl⟩

theorem handleDisconnect_rooms (s : Server) (a : Nat) :
    (handleDisconnect s a).waitingRoom = s.waitingRoom ∧
    (handleDisconnect s a).activeConnections = s.activeConnections ∧
    (handleDisconnect s a).onlineUsers = s.onlineUsers ∧
    (handleDisconnect s a).heap.length = s.heap.length := by
  unfold handleDisconnect
  cases s.heap[a]? with
  | none => exact ⟨rfl, rfl, rfl, rfl⟩
  | some A =>
    simp only
    cases A.partner with
    | none =>
      simp only
      split
      · exact ⟨rfl, rfl, rfl, List.length_modify _ _ _⟩
      · exact ⟨rfl, rfl, rfl, rfl⟩
    | some p =>
      simp only
      split
      · split
        · exact ⟨rfl, rfl, rfl, by simp [List.length_modify]⟩
        · exact ⟨rfl, rfl, rfl, List.length_modify _ _ _⟩
      · split
        · exact ⟨rfl, rfl, rfl, List.length_modify _ _ _⟩
        · exact ⟨rfl, rfl, rfl, rfl⟩

/-- **C15.** `handleDisconnect(A)` leaves `waitingRoom` and the keys of
`activeConnections` unchanged and creates or removes no session; every session
keeps its interests, `strictMatch`, `lastMessageTime` and `messageCount`, and its
`partner` too unless it is the session named by `A.partner`, whose `partner` may
become `null`; so the surviving partner is not put back into the waiting room. -/
theorem handleDisconnect_frame (s : Server) (a : Nat) :
    (handleDisconnect s a).waitingRoom = s.waitingRoom ∧
    (handleDisconnect s a).activeConnections = s.activeConnections ∧
    (handleDisconnect s a).heap.length = s.heap.length ∧
    (∀ x X, s.heap[x]? = some X →
      ∃ Y, (handleDisconnect s a).heap[x]? = some Y ∧ UserSession.sameData X Y ∧
        (Y.partner = X.partner ∨ (Y.partner = none ∧ s.partnerOf a = some x))) ∧
    (∀ p, s.partnerOf a = some p →
      (p ∈ (handleDisconnect s a).waitingRoom ↔ p ∈ s.waitingRoom)) := by
  obtain ⟨h1, h2, _, h4⟩ := handleDisconnect_rooms s a
  refine ⟨h1, h2, h4, ?_, ?_⟩
  · intro x X hx
    obtain ⟨Y, hY, a1, a2, a3, a4, a5, _⟩ := handleDisconnect_heap s a x X hx
    exact ⟨Y, hY, ⟨a1, a2, a3, a4⟩, a5⟩
  · intro p _
    rw [h1]

/-- On the paired state, the disconnect of session `0` keeps session `1` as it was
but for its `partner`, which becomes `null`. -/
theorem handleDisconnect_frame_witness :
    ∃ Y, (handleDisconnect pairedState 0).heap[1]? = some Y ∧
      UserSession.sameData { UserSession.fresh with partner := some 0 } Y ∧
      (Y.partner = some 0 ∨ (Y.partner = none ∧ pairedState.partnerOf 0 = some 1)) :=
  (handleDisconnect_frame pairedState 0).2.2.2.1 1 { UserSession.fresh with partner := some 0 } rfl

/-! ## What `matchUsers` removes -/

theorem filter_erase_of_rejected (q : Nat → Bool) (a : Nat) (h : q a = false) (l : List Nat) :
    (l.erase a).filter q = l.filter q := by
  induction l with
  | nil => rfl
  | cons b rest ih =>
    by_cases hb : b = a
    · subst hb
      simp [List.filter_cons, h]
    · rw [List.erase_cons_tail (by simpa using hb)]
      simp only [List.filter_cons, ih]

theorem matchUsers_waitingRoom_of_mem (s : Server) (user p : Nat)
    (hf : findMatch s user = some p) (hu : user ∈ s.waitingRoom) :
    (matchUsers s user).waitingRoom = (s.waitingRoom.erase user).erase p ∧
    (matchUsers s user).waitingRoom.filter (fun x => decide (x ≠ user ∧ x ≠ p)) =
      s.waitingRoom.filter (fun x => decide (x ≠ user ∧ x ≠ p)) ∧
    List.Sublist (matchUsers s user).waitingRoom s.waitingRoom := by
  obtain ⟨hpm, hpu, _, _⟩ := findMatch_some_spec s user p hf
  have hp1 : p ∈ s.waitingRoom.erase user := (List.mem_erase_of_ne hpu).mpr hpm
  have hw : (matchUsers s user).waitingRoom = (s.waitingRoom.erase user).erase p := by
    unfold matchUsers
    simp only [hf]
    rw [splice1_jsIndexOf_of_mem _ _ hu, splice1_jsIndexOf_of_mem _ _ hp1]
  refine ⟨hw, ?_, ?_⟩
  · rw [hw, filter_erase_of_rejected _ p (by simp), filter_erase_of_rejected _ user (by simp)]
  · rw [hw]
    exact (List.erase_sublist p _).trans (List.erase_sublist user _)

/-- **C18.** `matchUsers(user)` runs only as the deferred pass of a `start-chat` of
`user`, on the state in which the handler has just pushed `user`.  For every state
and every such pass that is successful, with partner `P`: it removes the first
entry of `user` and the first entry of `P` and nothing else, so the entries of
every other session are the same afterwards as before the pass and as before the
`start-chat`, in the same order, and the new waiting room is a sublist of the one
the pass started from. -/
theorem matchUsers_removes_only_pair (s : Server) (user p : Nat) (interests : List String)
    (strictMatch : Bool)
    (hf : findMatch (afterPush s user interests strictMatch) user = some p) :
    onStartChat s user interests strictMatch
      = matchUsers (afterPush s user interests strictMatch) user ∧
    (matchUsers (afterPush s user interests strictMatch) user).waitingRoom
      = ((afterPush s user interests strictMatch).waitingRoom.erase user).erase p ∧
    (matchUsers (afterPush s user interests strictMatch) user).waitingRoom.filter
        (fun x => decide (x ≠ user ∧ x ≠ p))
      = (afterPush s user interests strictMatch).waitingRoom.filter
        (fun x => decide (x ≠ user ∧ x ≠ p)) ∧
    (matchUsers (afterPush s user interests strictMatch) user).waitingRoom.filter
        (fun x => decide (x ≠ user ∧ x ≠ p))
      = s.waitingRoom.filter (fun x => decide (x ≠ user ∧ x ≠ p)) ∧
    List.Sublist (matchUsers (afterPush s user interests strictMatch) user).waitingRoom
      (afterPush s user interests strictMatch).waitingRoom := by
  have hu : user ∈ (afterPush s user interests strictMatch).waitingRoom := by
    simp [afterPush]
  obtain ⟨h1, h2, h3⟩ :=
    matchUsers_waitingRoom_of_mem (afterPush s user interests strictMatch) user p hf hu
  refine ⟨rfl, h1, h2, ?_, h3⟩
  rw [h2]
  show (s.waitingRoom ++ [user]).filter _ = _
  rw [List.filter_append]
  simp

/-- With sessions `2`, `1`, `3` waiting, a strict `start-chat` of session `0` for
`music` is matched with session `1`, and sessions `2` and `3` stay, in that order. -/
theorem matchUsers_removes_only_pair_witness :
    (onStartChat threeWaiting 0 ["music"] true).waitingRoom = [2, 3] ∧
    (onStartChat threeWaiting 0 ["music"] true
      = matchUsers (afterPush threeWaiting 0 ["music"] true) 0 ∧
    (matchUsers (afterPush threeWaiting 0 ["music"] true) 0).waitingRoom
      = ((afterPush threeWaiting 0 ["music"] true).waitingRoom.erase 0).erase 1 ∧
    (matchUsers (afterPush threeWaiting 0 ["music"] true) 0).waitingRoom.filter
        (fun x => decide (x ≠ 0 ∧ x ≠ 1))
      = (afterPush threeWaiting 0 ["music"] true).waitingRoom.filter
        (fun x => decide (x ≠ 0 ∧ x ≠ 1)) ∧
    (matchUsers (afterPush threeWaiting 0 ["music"] true) 0).waitingRoom.filter
        (fun x => decide (x ≠ 0 ∧ x ≠ 1))
      = threeWaiting.waitingRoom.filter (fun x => decide (x ≠ 0 ∧ x ≠ 1)) ∧
    List.Sublist (matchUsers (afterPush threeWaiting 0 ["music"] true) 0).waitingRoom
      (afterPush threeWaiting 0 ["music"] true).waitingRoom) :=
  ⟨by decide, matchUsers_removes_only_pair threeWaiting 0 1 ["music"] true (by decide)⟩

/-! ## The waiting-room invariant -/

set_option maxRecDepth 100000 in
/-- **C12 (counterexample).** After two `start-chat` events of one session the
waiting room holds it twice; and after a `start-chat` of a paired session the
waiting room holds a session whose `partner` is not `null`. -/
theorem waiting_room_invariant_fails :
    (∃ t, run Server.empty doubleStartTrace = some t ∧ ¬ t.waitingRoom.Nodup) ∧
    (∃ t, run Server.empty restartTrace = some t ∧
      ¬ ∀ w ∈ t.waitingRoom, t.partnerOf w = none) ∧
    (∃ t, run Server.empty doubleStartTrace = some t ∧ ¬ WaitingRoomInvariant t) := by
  refine ⟨⟨_, rfl, by decide⟩, ⟨_, rfl, by decide⟩, ⟨_, rfl, ?_⟩⟩
  intro h
  exact absurd h.1 (by decide)

theorem partnerIn_append_fresh (heap : List UserSession) (x : Nat) :
    partnerIn (heap ++ [UserSession.fresh]) x = partnerIn heap x := by
  unfold partnerIn
  rcases Nat.lt_trichotomy x heap.length with h | h | h
  · rw [List.getElem?_append_left h]
  · subst h
    simp [UserSession.fresh]
  · rw [List.getElem?_eq_none (by simp; omega), List.getElem?_eq_none (by omega)]

theorem handleDisconnect_partnerIn (s : Server) (a x : Nat) :
    partnerIn (handleDisconnect s a).heap x = partnerIn s.heap x ∨
    partnerIn (handleDisconnect s a).heap x = none := by
  cases hx : s.heap[x]? with
  | none =>
    right
    have hlen := (handleDisconnect_rooms s a).2.2.2
    have hge : s.heap.length ≤ x := by
      by_contra hlt
      rw [List.getElem?_eq_getElem (by omega)] at hx
      cases hx
    unfold partnerIn
    rw [List.getElem?_eq_none (by omega)]
    rfl
  | some X =>
    obtain ⟨Y, hY, _, _, _, _, hp, _⟩ := handleDisconnect_heap s a x X hx
    unfold partnerIn
    rw [hY, hx]
    rcases hp with hp | ⟨hp, _⟩
    · left
      simp [hp]
    · right
      simp [hp]

theorem onStartChat_frame (s : Server) (user : Nat) (interests : List String)
    (strictMatch : Bool) (hnw : user ∉ s.waitingRoom) :
    ((onStartChat s user interests strictMatch).waitingRoom = s.waitingRoom ++ [user] ∧
      ∀ x, partnerIn (onStartChat s user interests strictMatch).heap x = partnerIn s.heap x) ∨
    (∃ p, p ∈ s.waitingRoom ∧ p ≠ user ∧
      (onStartChat s user interests strictMatch).waitingRoom = s.waitingRoom.erase p ∧
      ∀ x, x ≠ p → x ≠ user →
        partnerIn (onStartChat s user interests strictMatch).heap x = partnerIn s.heap x) := by
  let s1 : Server :=
    { s with
      heap := s.heap.modify
        (fun x => { x with interests := interests, strictMatch := strictMatch }) user
      waitingRoom := s.waitingRoom ++ [user] }
  have hp1 : ∀ x, partnerIn s1.heap x = partnerIn s.heap x := by
    intro x
    apply partnerIn_modify_same
    intro _
    rfl
  show ((matchUsers s1 user).waitingRoom = _ ∧ ∀ x, partnerIn (matchUsers s1 user).heap x = _) ∨
    ∃ p, p ∈ s.waitingRoom ∧ p ≠ user ∧ (matchUsers s1 user).waitingRoom = _ ∧
      ∀ x, x ≠ p → x ≠ user → partnerIn (matchUsers s1 user).heap x = _
  unfold matchUsers
  cases hf : findMatch s1 user with
  | none =>
    left
    exact ⟨rfl, hp1⟩
  | some p =>
    right
    obtain ⟨hpm, hpu, _, _⟩ := findMatch_some_spec s1 user p hf
    have hpw : p ∈ s.waitingRoom := by
      simp only [s1, List.mem_append, List.mem_singleton] at hpm
      rcases hpm with h | h
      · exact h
      · exact absurd h hpu
    have hw1 : splice1 s1.waitingRoom (jsIndexOf s1.waitingRoom user) = s.waitingRoom := by
      rw [splice1_jsIndexOf_of_mem _ _ (by simp [s1])]
      show (s.waitingRoom ++ [user]).erase user = s.waitingRoom
      rw [List.erase_append_right _ hnw]
      simp
    refine ⟨p, hpw, hpu, ?_, ?_⟩
    · simp only [hw1]
      rw [splice1_jsIndexOf_of_mem _ _ hpw]
    · intro x h1 h2
      simp only
      rw [partnerIn_modify_ne _ _ _ _ h1, partnerIn_modify_ne _ _ _ _ h2]
      exact hp1 x

theorem WaitingRoomInvariant.waiting_step {s t : Server} (hs : WaitingRoomInvariant s) (e : Event)
    (hg : guardedStart s e = true) (h : step s e = some t) : WaitingRoomInvariant t := by
  obtain ⟨hn, hw⟩ := hs
  have hw2 : ∀ w ∈ s.waitingRoom, partnerIn s.heap w = none := hw
  have same : ∀ r : Server, r.waitingRoom = s.waitingRoom →
      (∀ x, partnerIn r.heap x = partnerIn s.heap x ∨ partnerIn r.heap x = none) →
      WaitingRoomInvariant r := by
    intro r h1 h2
    refine ⟨by rw [h1]; exact hn, ?_⟩
    intro w hwr
    rw [h1] at hwr
    show partnerIn r.heap w = none
    rcases h2 w with h3 | h3
    · rw [h3]
      exact hw2 w hwr
    · exact h3
  cases e with
  | connection =>
    simp only [Qmegle.step, Option.some.injEq] at h
    subst h
    exact same _ rfl (fun x => Or.inl (partnerIn_append_fresh s.heap x))
  | close ws =>
    simp only [Qmegle.step] at h
    by_cases hl : s.live ws = true
    · simp only [hl, if_true, Option.some.injEq] at h
      subst h
      cases hU : s.heap[ws]? with
      | none => simp [Server.live, hU] at hl
      | some U =>
        obtain ⟨h1, _, h3, _⟩ := onClose_frame s ws U hU
        refine same _ h1 (fun x => ?_)
        rcases h3 x with h4 | ⟨h4, _⟩
        · exact Or.inl h4
        · exact Or.inr h4
    · rw [if_neg hl] at h
      cases h
      exact ⟨hn, hw⟩
  | message ws m now =>
    simp only [Qmegle.step] at h
    by_cases hl : s.live ws = true
    · simp only [hl, if_true] at h
      cases m with
      | startChat interests strictMatch =>
        simp only [onMessage, Option.some.injEq] at h
        subst h
        simp only [guardedStart, hl, Bool.not_true, Bool.false_or, Bool.and_eq_true,
          decide_eq_true_eq] at hg
        have hpn : partnerIn s.heap ws = none := hg.1
        rcases onStartChat_frame s ws interests strictMatch hg.2 with
          ⟨h1, h2⟩ | ⟨p, hp1, hp2, h1, h2⟩
        · constructor
          · rw [h1, List.nodup_append]
            refine ⟨hn, List.nodup_singleton _, ?_⟩
            intro a ha hb
            simp only [List.mem_singleton] at hb
            subst hb
            exact hg.2 ha
          · intro w hwr
            show partnerIn _ w = none
            rw [h1, List.mem_append, List.mem_singleton] at hwr
            rw [h2]
            rcases hwr with hwr | hwr
            · exact hw2 w hwr
            · rw [hwr]
              exact hpn
        · constructor
          · rw [h1]
            exact hn.erase p
          · intro w hwr
            show partnerIn _ w = none
            rw [h1] at hwr
            have hw3 := (List.Nodup.mem_erase_iff hn).mp hwr
            have hwu : w ≠ ws := fun e => hg.2 (e ▸ hw3.2)
            rw [h2 w hw3.1 hwu]
            exact hw2 w hw3.2
      | message text =>
        simp only [onMessage, Option.some.injEq] at h
        subst h
        obtain ⟨h1, _, h3, _⟩ := handleMessage_frame s ws text now
        exact same _ h1 (fun x => Or.inl (h3 x))
      | typing isTyping =>
        simp only [onMessage, onTyping] at h
        split at h
        · cases h
          exact ⟨hn, hw⟩
        · split at h
          · cases h
            exact same _ rfl (fun x => Or.inl rfl)
          · cases h
      | disconnect =>
        simp only [onMessage, Option.some.injEq] at h
        subst h
        exact same _ (handleDisconnect_rooms s ws).1 (handleDisconnect_partnerIn s ws)
      | other =>
        simp only [onMessage, Option.some.injEq] at h
        subst h
        exact ⟨hn, hw⟩
    · rw [if_neg hl] at h
      cases h
      exact ⟨hn, hw⟩

theorem WaitingRoomInvariant.waiting_run (evs : List Event) :
    ∀ {s t : Server}, WaitingRoomInvariant s → guardedStarts s evs = true →
      run s evs = some t → WaitingRoomInvariant t := by
  induction evs with
  | nil =>
    intro s t hs _ h
    simp only [Qmegle.run, Option.some.injEq] at h
    subst h
    exact hs
  | cons e es ih =>
    intro s t hs ho h
    simp only [Qmegle.run] at h
    simp only [guardedStarts, Bool.and_eq_true] at ho
    cases hst : Qmegle.step s e with
    | none => simp [hst] at h
    | some r =>
      rw [hst] at h
      simp only [Option.some_bind] at h
      have hor := ho.2
      rw [hst] at hor
      exact ih (hs.waiting_step e ho.1 hst) hor h

/-- **C12 (as amended).** In every state reached from the empty server by a
sequence of connection, start-chat, message, typing, disconnect and close events in
which `start-chat` comes only from sessions that are unpaired and not in the waiting
room, the waiting room holds no session more than once and every session in it has
`partner = null`. -/
theorem waiting_room_invariant_guarded (evs : List Event) (t : Server)
    (hg : guardedStarts Server.empty evs = true) (hr : run Server.empty evs = some t) :
    WaitingRoomInvariant t :=
  WaitingRoomInvariant.waiting_run evs ⟨List.nodup_nil, fun _ h => by cases h⟩ hg hr

set_option maxRecDepth 100000 in
/-- The run in which a paired session sends an explicit `disconnect` has guarded
`start-chat` events and keeps the waiting-room invariant. -/
theorem waiting_room_invariant_guarded_witness :
    guardedStarts Server.empty disconnectTrace = true ∧
    (∃ t, run Server.empty disconnectTrace = some t ∧ WaitingRoomInvariant t) :=
  ⟨by decide, _, rfl, waiting_room_invariant_guarded disconnectTrace _ (by decide) rfl⟩

/-! ## The online-user count -/

theorem liveIn_append_fresh_ne (heap : List UserSession) (x : Nat) (hx : x ≠ heap.length) :
    liveIn (heap ++ [UserSession.fresh]) x = liveIn heap x := by
  unfold liveIn
  rcases Nat.lt_trichotomy x heap.length with h | h | h
  · rw [List.getElem?_append_left h]
  · exact absurd h hx
  · rw [List.getElem?_eq_none (by simp; omega), List.getElem?_eq_none (by omega)]

theorem handleDisconnect_liveIn (s : Server) (a x : Nat) :
    liveIn (handleDisconnect s a).heap x = liveIn s.heap x := by
  have hpart : ∀ (h : List UserSession) (p : Nat),
      liveIn (h.modify (fun v => { v with partner := none }) p) x = liveIn h x := by
    intro h p
    apply liveIn_modify_same
    intro _
    rfl
  unfold handleDisconnect
  cases ha : s.heap[a]? with
  | none => rfl
  | some A =>
    simp only
    have hclose : ∀ (h : List UserSession), A.readyState = ReadyState.OPEN →
        (∀ v, h[a]? = some v → v.readyState = A.readyState) →
        liveIn (h.modify (fun v => { v with readyState := ReadyState.CLOSING }) a) x
          = liveIn h x := by
      intro h hopen hv
      apply liveIn_modify_at
      intro v hva
      rw [hv v hva, hopen]
      rfl
    have hsame : ∀ v, s.heap[a]? = some v → v.readyState = A.readyState := by
      intro v hv
      rw [ha] at hv
      cases hv
      rfl
    cases A.partner with
    | none =>
      simp only
      by_cases hopen : A.readyState = ReadyState.OPEN
      · simp only [hopen, if_true]
        exact hclose _ hopen hsame
      · simp only [hopen, if_false]
    | some p =>
      simp only
      have hsame2 : ∀ v,
          (s.heap.modify (fun v => { v with partner := none }) p)[a]? = some v →
          v.readyState = A.readyState := by
        intro v hv
        rw [List.getElem?_modify, ha] at hv
        by_cases hpa : p = a
        · simp only [hpa, if_true, Option.map_eq_map, Option.map_some', Option.some.injEq] at hv
          rw [← hv]
        · simp only [hpa, if_false, Option.map_eq_map, Option.map_some', Option.some.injEq] at hv
          rw [← hv]
      by_cases hact : p ∈ s.activeConnections <;>
        by_cases hopen : A.readyState = ReadyState.OPEN
      · simp only [hact, hopen, if_true]
        rw [hclose _ hopen hsame2, hpart]
      · simp only [hact, hopen, if_true, if_false]
        exact hpart _ _
      · simp only [hact, hopen, if_true, if_false]
        exact hclose _ hopen hsame
      · simp only [hact, hopen, if_false]

theorem onStartChat_registry (s : Server) (user : Nat) (interests : List String)
    (strictMatch : Bool) :
    (onStartChat s user interests strictMatch).onlineUsers = s.onlineUsers ∧
    (onStartChat s user interests strictMatch).activeConnections = s.activeConnections ∧
    (onStartChat s user interests strictMatch).heap.length = s.heap.length ∧
    ∀ x, liveIn (onStartChat s user interests strictMatch).heap x = liveIn s.heap x := by
  have hl1 : ∀ x, liveIn (s.heap.modify
      (fun x => { x with interests := interests, strictMatch := strictMatch }) user) x
        = liveIn s.heap x := by
    intro x
    apply liveIn_modify_same
    intro _
    rfl
  unfold onStartChat matchUsers
  simp only
  split
  · exact ⟨rfl, rfl, List.length_modify _ _ _, hl1⟩
  · refine ⟨rfl, rfl, by simp [List.length_modify], ?_⟩
    intro x
    simp only
    rw [liveIn_modify_same, liveIn_modify_same]
    · exact hl1 x
    · intro _
      rfl
    · intro _
      rfl

theorem handleMessage_onlineUsers (s : Server) (sender : Nat) (text : List Char) (now : Nat) :
    (handleMessage s sender text now).onlineUsers = s.onlineUsers := by
  unfold handleMessage
  split
  · rfl
  · split
    · rfl
    · split
      · rfl
      · split
        · rfl
        · split
          · rfl
          · split <;> rfl

theorem length_filter_ne_of_nodup (l : List Nat) (a : Nat) (hn : l.Nodup) (h : a ∈ l) :
    (l.filter (fun k => k != a)).length + 1 = l.length := by
  induction l with
  | nil => cases h
  | cons b rest ih =>
    rw [List.nodup_cons] at hn
    by_cases hb : b = a
    · subst hb
      have hall : rest.filter (fun k => k != b) = rest := by
        rw [List.filter_eq_self]
        intro x hx
        have : x ≠ b := fun e => hn.1 (e ▸ hx)
        simpa using this
      simp [List.filter_cons, hall]
    · have hmem : a ∈ rest := by
        rcases List.mem_cons.mp h with e | e
        · exact absurd e.symm hb
        · exact e
      have := ih hn.2 hmem
      simp only [List.filter_cons, bne_iff_ne, ne_eq, hb, not_false_eq_true, decide_True,
        if_true, List.length_cons]
      simp only [bne_iff_ne, ne_eq] at this
      omega

theorem CountInv.count_transfer {s r : Server} (hs : CountInv s)
    (h1 : r.onlineUsers = s.onlineUsers) (h2 : r.activeConnections = s.activeConnections)
    (h3 : r.heap.length = s.heap.length) (h4 : ∀ x, liveIn r.heap x = liveIn s.heap x) :
    CountInv r := by
  constructor
  · rw [h1, h2]
    exact hs.count
  · rw [h2]
    exact hs.nodup
  · intro x hx
    rw [h4] at hx
    rw [h2]
    exact hs.registered x hx
  · intro x hx
    rw [h2] at hx
    rw [h3]
    exact hs.bound x hx

theorem CountInv.count_step {s t : Server} (hs : CountInv s) (e : Event)
    (h : step s e = some t) : CountInv t := by
  cases e with
  | connection =>
    simp only [Qmegle.step, Option.some.injEq] at h
    subst h
    have hfresh : s.heap.length ∉ s.activeConnections := fun hm =>
      Nat.lt_irrefl _ (hs.bound _ hm)
    constructor
    · simp only [onConnection, List.length_append, List.length_singleton]
      rw [hs.count]
      push_cast
      rfl
    · simp only [onConnection]
      rw [List.nodup_append]
      refine ⟨hs.nodup, List.nodup_singleton _, ?_⟩
      intro a ha hb
      simp only [List.mem_singleton] at hb
      subst hb
      exact hfresh ha
    · intro x hx
      simp only [onConnection, List.mem_append, List.mem_singleton] at hx ⊢
      by_cases hxl : x = s.heap.length
      · exact Or.inr hxl
      · rw [liveIn_append_fresh_ne _ _ hxl] at hx
        exact Or.inl (hs.registered x hx)
    · intro x hx
      simp only [onConnection, List.mem_append, List.mem_singleton, List.length_append,
        List.length_singleton] at hx ⊢
      rcases hx with hx | hx
      · have := hs.bound x hx
        omega
      · omega
  | close ws =>
    simp only [Qmegle.step] at h
    by_cases hl : s.live ws = true
    · simp only [hl, if_true, Option.some.injEq] at h
      subst h
      have hl2 : liveIn s.heap ws = true := hl
      have hmem := hs.registered ws hl2
      cases hU : s.heap[ws]? with
      | none => simp [liveIn, hU] at hl2
      | some U =>
        obtain ⟨_, h2, _, h4, h5, h6⟩ := onClose_frame s ws U hU
        have hlen := length_filter_ne_of_nodup _ ws hs.nodup hmem
        have hon : (onClose s ws).onlineUsers = s.onlineUsers - 1 := by
          unfold onClose
          simp only
          rw [(handleDisconnect_rooms _ ws).2.2.1]
        constructor
        · rw [hon, h2, hs.count]
          omega
        · rw [h2]
          exact hs.nodup.filter _
        · intro x hx
          have hxu : x ≠ ws := by
            intro e
            subst e
            rw [h5] at hx
            cases hx
          rw [h4 x hxu] at hx
          rw [h2, List.mem_filter]
          exact ⟨hs.registered x hx, by simpa using hxu⟩
        · intro x hx
          rw [h2, List.mem_filter] at hx
          rw [h6]
          exact hs.bound x hx.1
    · rw [if_neg hl] at h
      cases h
      exact hs
  | message ws m now =>
    simp only [Qmegle.step] at h
    by_cases hl : s.live ws = true
    · simp only [hl, if_true] at h
      cases m with
      | startChat interests strictMatch =>
        simp only [onMessage, Option.some.injEq] at h
        subst h
        obtain ⟨h1, h2, h3, h4⟩ := onStartChat_registry s ws interests strictMatch
        exact hs.count_transfer h1 h2 h3 h4
      | message text =>
        simp only [onMessage, Option.some.injEq] at h
        subst h
        obtain ⟨_, h2, _, h4, h5⟩ := handleMessage_frame s ws text now
        exact hs.count_transfer (handleMessage_onlineUsers s ws text now) h2 h5 h4
      | typing isTyping =>
        simp only [onMessage, onTyping] at h
        split at h
        · cases h
          exact hs
        · split at h
          · cases h
            exact hs.count_transfer rfl rfl rfl (fun _ => rfl)
          · cases h
      | disconnect =>
        simp only [onMessage, Option.some.injEq] at h
        subst h
        obtain ⟨_, h2, h1, h3⟩ := handleDisconnect_rooms s ws
        exact hs.count_transfer h1 h2 h3 (handleDisconnect_liveIn s ws)
      | other =>
        simp only [onMessage, Option.some.injEq] at h
        subst h
        exact hs
    · rw [if_neg hl] at h
      cases h
      exact hs

theorem CountInv.count_run (evs : List Event) :
    ∀ {s t : Server}, CountInv s → run s evs = some t → CountInv t := by
  induction evs with
  | nil =>
    intro s t hs h
    simp only [Qmegle.run, Option.some.injEq] at h
    subst h
    exact hs
  | cons e es ih =>
    intro s t hs h
    simp only [Qmegle.run] at h
    cases hst : Qmegle.step s e with
    | none => simp [hst] at h
    | some r =>
      rw [hst] at h
      simp only [Option.some_bind] at h
      exact ih (hs.count_step e hst) h

theorem CountInv.count_initial : CountInv Server.empty := by
  constructor
  · rfl
  · exact List.nodup_nil
  · intro x h
    simp [liveIn, Server.empty] at h
  · intro x h
    cases h

/-- **C20.** In every state reached from the empty server by any sequence of
events (each connection gets a fresh id, a socket delivers one close notification),
`onlineUsers` is the number of sessions in `activeConnections`; and a connection
arriving in that state gets a key that is not registered yet and is sent one `init`
event with that key and with the number of registered sessions including itself. -/
theorem onlineUsers_counts_sessions (evs : List Event) (t : Server)
    (hr : run Server.empty evs = some t) :
    t.onlineUsers = (t.activeConnections.length : Int) ∧
    t.heap.length ∉ t.activeConnections ∧
    (onConnection t).activeConnections = t.activeConnections ++ [t.heap.length] ∧
    emitted t (onConnection t) =
      [Effect.send t.heap.length
        (ServerEvent.init t.heap.length ((onConnection t).activeConnections.length : Int))] := by
  have hk := CountInv.count_run evs CountInv.count_initial hr
  refine ⟨hk.count, fun hm => Nat.lt_irrefl _ (hk.bound _ hm), rfl, ?_⟩
  have : emitted t (onConnection t) =
      [Effect.send t.heap.length (ServerEvent.init t.heap.length (t.onlineUsers + 1))] :=
    emitted_append t _ _ _ _ _
  rw [this, hk.count]
  simp [onConnection]

set_option maxRecDepth 100000 in
/-- After three connections, a pairing, a disconnect and the closes of sessions `0`
(notified twice, counted once) and `2`, one session is online and registered. -/
theorem onlineUsers_counts_sessions_witness :
    ∃ t, run Server.empty countTrace = some t ∧
      t.onlineUsers = 1 ∧ t.activeConnections = [1] ∧
      (t.onlineUsers = (t.activeConnections.length : Int) ∧
      t.heap.length ∉ t.activeConnections ∧
      (onConnection t).activeConnections = t.activeConnections ++ [t.heap.length] ∧
      emitted t (onConnection t) =
        [Effect.send t.heap.length
          (ServerEvent.init t.heap.length ((onConnection t).activeConnections.length : Int))]) :=
  ⟨_, rfl, by decide, by decide, onlineUsers_counts_sessions countTrace _ rfl⟩

/-! ## The flood counter never decreases -/

theorem CountLe.refl (h : List UserSession) : CountLe h h :=
  fun _ X hx => ⟨X, hx, Nat.le_refl _⟩

theorem CountLe.trans {h k m : List UserSession} (a : CountLe h k) (b : CountLe k m) :
    CountLe h m := by
  unfold CountLe
  intro x X hx
  obtain ⟨Y, hY, h1⟩ := a x X hx
  obtain ⟨Z, hZ, h2⟩ := b x Y hY
  exact ⟨Z, hZ, Nat.le_trans h1 h2⟩

theorem CountLe.modify (f : UserSession → UserSession)
    (hf : ∀ u, u.messageCount ≤ (f u).messageCount) (h : List UserSession) (i : Nat) :
    CountLe h (h.modify f i) := by
  unfold CountLe
  intro x X hx
  rw [List.getElem?_modify, hx]
  by_cases e : i = x
  · exact ⟨f X, by simp [e], hf X⟩
  · exact ⟨X, by simp [e], Nat.le_refl _⟩

theorem CountLe.append (h l : List UserSession) : CountLe h (h ++ l) := by
  unfold CountLe
  intro x X hx
  have hlt : x < h.length := by
    by_contra hge
    rw [List.getElem?_eq_none (by omega)] at hx
    cases hx
  exact ⟨X, by rw [List.getElem?_append_left hlt]; exact hx, Nat.le_refl _⟩

theorem handleMessage_countLe (s : Server) (sender : Nat) (text : List Char) (now : Nat) :
    CountLe s.heap (handleMessage s sender text now).heap := by
  have h1 : CountLe s.heap (s.heap.modify
      (fun x => { x with messageCount := x.messageCount + 1,
                         readyState := wsClose x.readyState }) sender) := by
    apply CountLe.modify
    intro u
    exact Nat.le_succ _
  have h2 : CountLe s.heap (s.heap.modify
      (fun x => { x with messageCount := x.messageCount + 1,
                         lastMessageTime := now }) sender) := by
    apply CountLe.modify
    intro u
    exact Nat.le_succ _
  unfold handleMessage
  split
  · exact CountLe.refl _
  · split
    · exact CountLe.refl _
    · split
      · exact h1
      · split
        · exact h2
        · split
          · exact h2
          · split
            · exact h2
            · exact h2

theorem matchUsers_countLe (s : Server) (user : Nat) :
    CountLe s.heap (matchUsers s user).heap := by
  unfold matchUsers
  split
  · exact CountLe.refl _
  · rename_i partner _
    simp only
    refine CountLe.trans
      (k := s.heap.modify (fun u => { u with partner := some partner }) user) ?_ ?_
    · apply CountLe.modify
      intro u
      exact Nat.le_refl _
    · apply CountLe.modify
      intro u
      exact Nat.le_refl _

theorem onStartChat_countLe (s : Server) (user : Nat) (interests : List String)
    (strictMatch : Bool) : CountLe s.heap (onStartChat s user interests strictMatch).heap := by
  unfold onStartChat
  refine CountLe.trans ?_ (matchUsers_countLe _ user)
  apply CountLe.modify
  intro u
  exact Nat.le_refl _

theorem handleDisconnect_countLe (s : Server) (a : Nat) :
    CountLe s.heap (handleDisconnect s a).heap := by
  unfold CountLe
  intro x X hx
  obtain ⟨Y, hY, _, _, _, h4, _, _⟩ := handleDisconnect_heap s a x X hx
  exact ⟨Y, hY, by rw [h4]⟩

theorem onClose_countLe (s : Server) (user : Nat) : CountLe s.heap (onClose s user).heap := by
  unfold onClose
  refine CountLe.trans ?_ (handleDisconnect_countLe _ user)
  apply CountLe.modify
  intro u
  exact Nat.le_refl _

theorem step_countLe {s t : Server} (e : Event) (h : step s e = some t) :
    CountLe s.heap t.heap := by
  cases e with
  | connection =>
    simp only [step, Option.some.injEq] at h
    subst h
    exact CountLe.append _ _
  | close ws =>
    simp only [step] at h
    split at h
    · cases h
      exact onClose_countLe s ws
    · cases h
      exact CountLe.refl _
  | message ws m now =>
    simp only [step] at h
    split at h
    · cases m with
      | startChat interests strictMatch =>
        simp only [onMessage, Option.some.injEq] at h
        subst h
        exact onStartChat_countLe s ws interests strictMatch
      | message text =>
        simp only [onMessage, Option.some.injEq] at h
        subst h
        exact handleMessage_countLe s ws text now
      | typing isTyping =>
        simp only [onMessage, onTyping] at h
        split at h
        · cases h
          exact CountLe.refl _
        · split at h
          · cases h
            exact CountLe.refl _
          · cases h
      | disconnect =>
        simp only [onMessage, Option.some.injEq] at h
        subst h
        exact handleDisconnect_countLe s ws
      | other =>
        simp only [onMessage, Option.some.injEq] at h
        subst h
        exact CountLe.refl _
    · cases h
      exact CountLe.refl _

theorem handleDisconnect_log (s : Server) (a : Nat) :
    ∃ l, (handleDisconnect s a).log = s.log ++ l ∧ ∀ e ∈ l, e.isMessage = false := by
  unfold handleDisconnect
  cases s.heap[a]? with
  | none => exact ⟨[], by simp, fun _ h => by cases h⟩
  | some A =>
    simp only
    cases A.partner with
    | none =>
      simp only
      by_cases hopen : A.readyState = ReadyState.OPEN
      · simp only [hopen, if_true]
        exact ⟨_, rfl, by simp [Effect.isMessage]⟩
      · simp only [hopen, if_false]
        exact ⟨[], by simp, fun _ h => by cases h⟩
    | some p =>
      simp only
      by_cases hact : p ∈ s.activeConnections <;>
        by_cases hopen : A.readyState = ReadyState.OPEN
      · simp only [hact, hopen, if_true]
        exact ⟨[Effect.send p ServerEvent.disconnect, Effect.close a], by simp,
          by simp [Effect.isMessage]⟩
      · simp only [hact, hopen, if_true, if_false]
        exact ⟨_, rfl, by simp [Effect.isMessage]⟩
      · simp only [hact, hopen, if_true, if_false]
        exact ⟨_, rfl, by simp [Effect.isMessage]⟩
      · simp only [hact, hopen, if_false]
        exact ⟨[], by simp, fun _ h => by cases h⟩

theorem step_log {s t : Server} (e : Event) (h : step s e = some t) :
    ∃ l, t.log = s.log ++ l ∧
      ∀ p text x, Effect.send p (ServerEvent.message text x) ∈ l →
        ∃ X, s.heap[x]? = some X ∧ X.messageCount ≤ 30 := by
  have quiet : ∀ l : List Effect, (∀ e ∈ l, e.isMessage = false) →
      ∀ p text x, Effect.send p (ServerEvent.message text x) ∈ l →
        ∃ X, s.heap[x]? = some X ∧ X.messageCount ≤ 30 := by
    intro l hl p text x hm
    have := hl _ hm
    simp [Effect.isMessage] at this
  cases e with
  | connection =>
    simp only [step, Option.some.injEq] at h
    subst h
    exact ⟨_, rfl, quiet _ (by simp [Effect.isMessage])⟩
  | close ws =>
    simp only [step] at h
    split at h
    · cases h
      obtain ⟨l, h1, h2⟩ := handleDisconnect_log
        { s with
          heap := s.heap.modify (fun x => { x with readyState := ReadyState.CLOSED }) ws,
          onlineUsers := s.onlineUsers - 1 } ws
      exact ⟨l, h1, quiet l h2⟩
    · cases h
      exact ⟨[], by simp, quiet [] (fun _ h => by cases h)⟩
  | message ws m now =>
    simp only [step] at h
    split at h
    · cases m with
      | startChat interests strictMatch =>
        simp only [onMessage, Option.some.injEq] at h
        subst h
        unfold onStartChat matchUsers
        simp only
        split
        · exact ⟨[], by simp, quiet [] (fun _ h => by cases h)⟩
        · exact ⟨_, rfl, quiet _ (by simp [Effect.isMessage])⟩
      | message text =>
        simp only [onMessage, Option.some.injEq] at h
        subst h
        cases hu : s.heap[ws]? with
        | none =>
          refine ⟨[], ?_, quiet [] (fun _ h => by cases h)⟩
          simp [handleMessage, hu]
        | some u =>
          rcases handleMessage_cases s ws u text now hu with
            ⟨_, hs⟩ | ⟨_, _, _, hl⟩ | ⟨_, hc, _, hl | ⟨q, hl⟩⟩
          · exact ⟨[], by simp [hs], quiet [] (fun _ h => by cases h)⟩
          · exact ⟨_, hl, quiet _ (by simp [Effect.isMessage])⟩
          · exact ⟨[], by simp [hl], quiet [] (fun _ h => by cases h)⟩
          · refine ⟨_, hl, ?_⟩
            intro p text2 x hm
            simp only [List.mem_singleton, Effect.send.injEq, ServerEvent.message.injEq] at hm
            obtain ⟨_, _, hx⟩ := hm
            subst hx
            exact ⟨u, hu, hc⟩
      | typing isTyping =>
        simp only [onMessage, onTyping] at h
        split at h
        · cases h
          exact ⟨[], by simp, quiet [] (fun _ h => by cases h)⟩
        · split at h
          · cases h
            exact ⟨_, rfl, quiet _ (by simp [Effect.isMessage])⟩
          · cases h
      | disconnect =>
        simp only [onMessage, Option.some.injEq] at h
        subst h
        obtain ⟨l, h1, h2⟩ := handleDisconnect_log s ws
        exact ⟨l, h1, quiet l h2⟩
      | other =>
        simp only [onMessage, Option.some.injEq] at h
        subst h
        exact ⟨[], by simp, quiet [] (fun _ h => by cases h)⟩
    · cases h
      exact ⟨[], by simp, quiet [] (fun _ h => by cases h)⟩

theorem run_countLe (evs : List Event) :
    ∀ {s t : Server}, run s evs = some t → CountLe s.heap t.heap := by
  induction evs with
  | nil =>
    intro s t h
    simp only [run, Option.some.injEq] at h
    subst h
    exact CountLe.refl _
  | cons e es ih =>
    intro s t h
    simp only [run] at h
    cases hst : step s e with
    | none => simp [hst] at h
    | some r =>
      rw [hst] at h
      simp only [Option.some_bind] at h
      exact CountLe.trans (step_countLe e hst) (ih h)

theorem run_log_flooded (evs : List Event) :
    ∀ {s t : Server} (sender : Nat) (X : UserSession), s.heap[sender]? = some X →
      30 < X.messageCount → run s evs = some t →
      ∃ l, t.log = s.log ++ l ∧
        ∀ p text, Effect.send p (ServerEvent.message text sender) ∉ l := by
  induction evs with
  | nil =>
    intro s t sender X _ _ h
    simp only [run, Option.some.injEq] at h
    subst h
    exact ⟨[], by simp, fun _ _ hm => by cases hm⟩
  | cons e es ih =>
    intro s t sender X hX hc h
    simp only [run] at h
    cases hst : step s e with
    | none => simp [hst] at h
    | some r =>
      rw [hst] at h
      simp only [Option.some_bind] at h
      obtain ⟨l1, hl1, hq1⟩ := step_log e hst
      obtain ⟨Y, hY, hXY⟩ := step_countLe e hst sender X hX
      obtain ⟨l2, hl2, hq2⟩ := ih sender Y hY (by omega) h
      refine ⟨l1 ++ l2, by rw [hl2, hl1, List.append_assoc], ?_⟩
      intro p text hm
      rcases List.mem_append.mp hm with hm | hm
      · obtain ⟨X2, hX2, hle⟩ := hq1 p text sender hm
        rw [hX] at hX2
        cases hX2
        omega
      · exact hq2 p text hm

/-- **C19.** Along any sequence of events every session keeps a `messageCount` at
least as large as before (no handler resets it); so once the counter of a sender
exceeds 30, no `message` event of that sender is forwarded in any later part of the
run, and every later call of `handleMessage` for it is either dropped by the rate
limit, leaving the state as it is, or only closes the sender's connection. -/
theorem messageCount_never_decreases (evs : List Event) (s t : Server) (sender : Nat)
    (X : UserSession) (hX : s.heap[sender]? = some X) (hr : run s evs = some t) :
    ∃ Y, t.heap[sender]? = some Y ∧ X.messageCount ≤ Y.messageCount ∧
      (30 < X.messageCount →
        (∀ p text, Effect.send p (ServerEvent.message text sender) ∉ emitted s t) ∧
        ∀ (text : List Char) (now : Nat),
          ((now : Int) - (Y.lastMessageTime : Int) < 1000 ∧
            handleMessage t sender text now = t) ∨
          emitted t (handleMessage t sender text now) = [Effect.close sender]) := by
  obtain ⟨Y, hY, hle⟩ := run_countLe evs hr sender X hX
  refine ⟨Y, hY, hle, ?_⟩
  intro hc
  constructor
  · obtain ⟨l, hl, hq⟩ := run_log_flooded evs sender X hX hc hr
    rw [emitted_of_log s t l hl]
    exact hq
  · intro text now
    rcases handleMessage_cases t sender Y text now hY with
      ⟨h1, h2⟩ | ⟨_, _, _, hl⟩ | ⟨_, h3, _, _⟩
    · exact Or.inl ⟨h1, h2⟩
    · exact Or.inr (emitted_of_log _ _ _ hl)
    · omega

set_option maxRecDepth 200000 in
/-- Session `0` has counter 31; after its partner left and it was matched with a
new session, its message much later is not forwarded and closes its connection. -/
theorem messageCount_never_decreases_witness :
    ∃ t, run floodedState laterTrace = some t ∧ t.partnerOf 0 = some 2 ∧
      (t.log.filter Effect.isMessage).length = 0 ∧
      ∃ Y, t.heap[0]? = some Y ∧ (31 : Nat) ≤ Y.messageCount ∧
        ((30 : Nat) < 31 →
          (∀ p text, Effect.send p (ServerEvent.message text 0) ∉ emitted floodedState t) ∧
          ∀ (text : List Char) (now : Nat),
            ((now : Int) - (Y.lastMessageTime : Int) < 1000 ∧
              handleMessage t 0 text now = t) ∨
            emitted t (handleMessage t 0 text now) = [Effect.close 0]) :=
  ⟨_, rfl, by decide, by decide,
    messageCount_never_decreases laterTrace floodedState _ 0
      { UserSession.fresh with partner := some 1, messageCount := 31 } rfl rfl⟩

end Qmegle
